import Mathlib

/-!
Verification of the semfora-explora analytics engine against its
natural-language specification.

Each Python function referenced by a claim is shallowly embedded as an
executable Lean definition translated from the source:

* `backend/analytics/dead_code.py`  → namespace `DeadCode`
* `backend/analytics/diff.py`       → namespace `Diff`
* `backend/analytics/cycles.py`     → namespace `Cycles`
* `backend/enrich.py`               → namespace `Enrich`
* `backend/queries/explore.py`      → namespace `Pivot`
* `backend/analytics/centrality.py` → namespace `Blast`

Python dicts are modelled as association lists in insertion order
(a later binding for the same key wins), Python sets as deduplicated
lists, SQL aggregation as list grouping, and Python floats as `ℚ`
(exact rationals; every numeric fact proved here is reached without
loss of precision, so the float/rational gap is immaterial at the
inputs used).  `sorted` is modelled by `List.insertionSort`, which is
a stable sort exactly like Python's.
-/

/-- Deduplication keeping the first occurrence of each element, the
order in which Python dicts and the sets built from them enumerate
their keys. -/
def uniqAux {α : Type} [DecidableEq α] (seen : List α) : List α → List α
  | [] => []
  | a :: l => if a ∈ seen then uniqAux seen l else a :: uniqAux (a :: seen) l

/-- Deduplication keeping the first occurrence of each element (see
`uniqAux`). -/
def uniq {α : Type} [DecidableEq α] (l : List α) : List α := uniqAux [] l

/-- Lowercase of a string, character by character: model of Python
`str.lower` restricted to the ASCII names that occur in the data. -/
def lowerStr (s : String) : String := String.mk (s.data.map Char.toLower)

/-- Model of Python `s.startswith(p)`. -/
def strStarts (s p : String) : Bool := List.isPrefixOf p.data s.data

/-- Model of Python `s.endswith(p)`. -/
def strEnds (s p : String) : Bool := List.isSuffixOf p.data s.data

/-- Model of Python `needle in hay` (substring containment). -/
def strContains (hay needle : String) : Bool :=
  hay.data.tails.any (fun t => List.isPrefixOf needle.data t)

/-- Rest of a character list after the first `':'`, if any: the
substring split used by the hash convention. -/
def afterFirstColon : List Char → Option (List Char)
  | [] => none
  | c :: rest => if c = ':' then some rest else afterFirstColon rest

/-- Model of Python `round(q, 3)` on an exact rational (round-half-up;
Python rounds half to even, but no half-way case is evaluated in this
development). -/
def round3 (q : ℚ) : ℚ := ((round (q * 1000) : ℤ) : ℚ) / 1000

namespace DeadCode

/-- Enumerated entrypoint names from `dead_code.py` (`_ENTRYPOINT_NAMES`). -/
def ENTRYPOINT_NAMES : List String :=
  ["main", "setup", "teardown", "configure", "run", "start", "init",
   "handler", "handle", "on_event", "register", "create_app", "app",
   "cli", "command", "callback", "entry", "entrypoint", "wsgi", "asgi",
   "lambda_handler", "index"]

/-- Framework name patterns from `dead_code.py` (`_FRAMEWORK_PATTERNS`). -/
def FRAMEWORK_PATTERNS : List String :=
  ["test_", "Test", "Spec", "Fixture", "conftest", "setUp", "tearDown"]

/-- Framework path segments from `dead_code.py` (`_FRAMEWORK_PATH_SEGMENTS`). -/
def FRAMEWORK_PATH_SEGMENTS : List String :=
  ["test", "spec", "fixture", "conftest", "__init__", "setup.py", "manage.py"]

/-- Node record as consumed by `classify_node` / `analyze_dead_code`
(`node.get(...)` fields; absent values are `none`). -/
structure DCNode where
  name : String
  file_path : Option String := none
  kind : String := ""
  complexity : Option Int := none
deriving DecidableEq, Repr

/-- Embedding of `classify_node` (dead_code.py lines 19-44). -/
def classify_node (node : DCNode) : String :=
  let name := node.name
  let fp := node.file_path.getD ""
  let kind := node.kind
  if lowerStr name ∈ ENTRYPOINT_NAMES then "caution"
  else if FRAMEWORK_PATTERNS.any (fun p => strStarts name p || strEnds name p) then "caution"
  else if FRAMEWORK_PATH_SEGMENTS.any (fun seg => strContains (lowerStr fp) seg) then "caution"
  else if kind = "class" then "caution"
  else if (strStarts name "_" || strStarts name "__") && node.complexity.getD 0 ≤ 8 then "safe"
  else "review"

/-- File key used for grouping: Python `n.get("file_path") or "unknown"`
(both missing and empty map to `"unknown"`). -/
def fileKey (n : DCNode) : String :=
  let f := n.file_path.getD ""
  if f = "" then "unknown" else f

/-- One file group of the dead-code report. -/
structure FileGroup where
  file : String
  dead_count : Nat
  safe_count : Nat
  review_count : Nat
  caution_count : Nat
  nodes : List (DCNode × String)
deriving DecidableEq, Repr

/-- Dead-code report returned by `analyze_dead_code`. -/
structure DeadCodeReport where
  total_dead : Nat
  dead_frac : ℚ
  safe_count : Nat
  review_count : Nat
  caution_count : Nat
  file_groups : List FileGroup
deriving DecidableEq, Repr

/-- Embedding of `analyze_dead_code` (dead_code.py lines 47-83).  The
`dead_ratio` output key is named `dead_frac` here.  Grouping by file
follows dict insertion order; the sort by descending group size is
Python's stable `sorted`. -/
def analyze_dead_code (candidates : List DCNode) (total_symbols : Nat) : DeadCodeReport :=
  let nodes : List (DCNode × String) := candidates.map (fun n => (n, classify_node n))
  let fileKeys : List String := (nodes.map (fun p => fileKey p.1)) |> uniq
  let groups : List (String × List (DCNode × String)) :=
    fileKeys.map (fun f => (f, nodes.filter (fun p => fileKey p.1 = f)))
  let sortedGroups := groups.insertionSort (fun a b => b.2.length ≤ a.2.length)
  let file_groups := sortedGroups.map (fun g =>
    { file := g.1
      dead_count := g.2.length
      safe_count := (g.2.filter (fun p => p.2 = "safe")).length
      review_count := (g.2.filter (fun p => p.2 = "review")).length
      caution_count := (g.2.filter (fun p => p.2 = "caution")).length
      nodes := g.2 : FileGroup })
  let dead_count := nodes.length
  { total_dead := dead_count
    dead_frac := if total_symbols ≠ 0 then (dead_count : ℚ) / (total_symbols : ℚ) else 0
    safe_count := (nodes.filter (fun p => p.2 = "safe")).length
    review_count := (nodes.filter (fun p => p.2 = "review")).length
    caution_count := (nodes.filter (fun p => p.2 = "caution")).length
    file_groups := file_groups }

/-- Spec-side classifier, written from the claim sentence: `caution`
wins if entrypoint name, framework name pattern, framework path
segment, or class kind; otherwise `safe` iff the name is private
(leading underscore) and complexity is at most 8; else `review`. -/
def classify_spec (node : DCNode) : String :=
  if lowerStr node.name ∈ ENTRYPOINT_NAMES
      ∨ FRAMEWORK_PATTERNS.any (fun p => strStarts node.name p || strEnds node.name p)
      ∨ FRAMEWORK_PATH_SEGMENTS.any (fun seg => strContains (lowerStr (node.file_path.getD "")) seg)
      ∨ node.kind = "class" then "caution"
  else if strStarts node.name "_" ∧ node.complexity.getD 0 ≤ 8 then "safe"
  else "review"

/-- Scenario A candidate nodes (spec section 8). -/
def scnA_nodes : List DCNode :=
  [{ name := "_helper", kind := "function", complexity := some 4 },
   { name := "main", kind := "function", complexity := some 2 },
   { name := "UserService", kind := "class", complexity := some 1 }]

end DeadCode

namespace Diff

/-- Node record as consumed by `compute_diff` / `compute_diff_graph`. -/
structure DNode where
  name : String
  module : String
  hash : String
deriving DecidableEq, Repr

/-- Module-level edge record (`caller_module`, `callee_module`, `edge_count`). -/
structure ModEdge where
  caller_module : String
  callee_module : String
  edge_count : Int
deriving DecidableEq, Repr

/-- Match key of `compute_diff`: `(name, module)`. -/
def dkey (n : DNode) : String × String := (n.name, n.module)

/-- Dict keys of `{key(n): n for n in nodes}` in insertion order. -/
def keysOf (nodes : List DNode) : List (String × String) := (nodes.map dkey) |> uniq

/-- Dict lookup, last binding wins (as in a Python dict comprehension). -/
def dictGet (nodes : List DNode) (k : String × String) : Option DNode :=
  nodes.reverse.find? (fun n => dkey n = k)

/-- Full added-node list of `compute_diff` before truncation:
`[kb[k] for k in keys_b - keys_a]` (set difference enumerated in the
dict-key order of B; Python set order is unspecified, and no claim
depends on the order of this list). -/
def addedFull (nodes_a nodes_b : List DNode) : List DNode :=
  ((keysOf nodes_b).filter (fun k => k ∉ keysOf nodes_a)).filterMap (dictGet nodes_b)

/-- Full removed-node list of `compute_diff` before truncation. -/
def removedFull (nodes_a nodes_b : List DNode) : List DNode :=
  ((keysOf nodes_a).filter (fun k => k ∉ keysOf nodes_b)).filterMap (dictGet nodes_a)

/-- Common key set `keys_a & keys_b`, enumerated in A-key order. -/
def commonKeys (nodes_a nodes_b : List DNode) : List (String × String) :=
  (keysOf nodes_a).filter (fun k => k ∈ keysOf nodes_b)

/-- Module-edge dict `{edge_key(e): e.edge_count}` keys, insertion order. -/
def meKeys (es : List ModEdge) : List (String × String) :=
  (es.map (fun e => (e.caller_module, e.callee_module))) |> uniq

/-- Module-edge count lookup, last binding wins. -/
def meGet (es : List ModEdge) (k : String × String) : Option Int :=
  (es.reverse.find? (fun e => (e.caller_module, e.callee_module) = k)).map (·.edge_count)

/-- Output record for an added/removed module edge. -/
structure MEOut where
  src : String
  tgt : String
  count : Int
deriving DecidableEq, Repr

/-- Full added module-edge list before truncation. -/
def modEdgesAddedFull (mod_edges_a mod_edges_b : List ModEdge) : List MEOut :=
  ((meKeys mod_edges_b).filter (fun k => k ∉ meKeys mod_edges_a)).filterMap
    (fun k => (meGet mod_edges_b k).map (fun c => ⟨k.1, k.2, c⟩))

/-- Full removed module-edge list before truncation. -/
def modEdgesRemovedFull (mod_edges_a mod_edges_b : List ModEdge) : List MEOut :=
  ((meKeys mod_edges_a).filter (fun k => k ∉ meKeys mod_edges_b)).filterMap
    (fun k => (meGet mod_edges_a k).map (fun c => ⟨k.1, k.2, c⟩))

/-- Result record of `compute_diff`. -/
structure DiffResult where
  similarity : ℚ
  nodes_added : Nat
  nodes_removed : Nat
  nodes_common : Nat
  added : List DNode
  removed : List DNode
  module_edges_added : List MEOut
  module_edges_removed : List MEOut
deriving DecidableEq, Repr

/-- Embedding of `compute_diff` (diff.py lines 12-51).  Set cardinality
`len(keys_a | keys_b)` is computed as `|A| + |B minus A|`, which is the
cardinality of the union of the two key sets. -/
def compute_diff (nodes_a nodes_b : List DNode)
    (mod_edges_a mod_edges_b : List ModEdge) : DiffResult :=
  let added := addedFull nodes_a nodes_b
  let removed := removedFull nodes_a nodes_b
  let common := commonKeys nodes_a nodes_b
  let unionLen := (keysOf nodes_a).length
    + ((keysOf nodes_b).filter (fun k => k ∉ keysOf nodes_a)).length
  let similarity := round3 ((common.length : ℚ) / (max unionLen 1 : ℚ))
  { similarity := similarity
    nodes_added := added.length
    nodes_removed := removed.length
    nodes_common := common.length
    added := added.take 50
    removed := removed.take 50
    module_edges_added := (modEdgesAddedFull mod_edges_a mod_edges_b).take 30
    module_edges_removed := (modEdgesRemovedFull mod_edges_a mod_edges_b).take 30 }

/-- Virtual id `name::module` of `compute_diff_graph`. -/
def vid (n : DNode) : String := n.name ++ "::" ++ n.module

/-- The `by_vid` dict of `compute_diff_graph`: lookup by virtual id,
last binding wins. -/
def byVid (nodes : List DNode) (v : String) : Option DNode :=
  nodes.reverse.find? (fun n => vid n = v)

/-- Modified virtual ids of `compute_diff_graph` (diff.py line 85):
ids present on both sides whose **full** hash strings differ. -/
def modified_vids (nodes_a nodes_b : List DNode) : List String :=
  (((nodes_a.map vid) |> uniq).filter (fun v => v ∈ nodes_b.map vid)).filter
    (fun v => (byVid nodes_a v).map (·.hash) ≠ (byVid nodes_b v).map (·.hash))

/-- Node status of `compute_diff_graph` (diff.py lines 133-137) for an
id present in both snapshots: `modified` or `context`. -/
def common_vid_status (nodes_a nodes_b : List DNode) (v : String) : String :=
  if v ∈ modified_vids nodes_a nodes_b then "modified" else "context"

/-- Content hash per the specification: the substring after the first
`:`; a hash beginning `ext:` is its own content; a hash with no colon
is its own content. -/
def content_hash_spec (h : String) : String :=
  if strStarts h "ext:" then h
  else match afterFirstColon h.data with
    | some rest => String.mk rest
    | none => h

end Diff

namespace Gr

/-- One closure step of forward reachability: a vertex set together
with all successors of its members. -/
def step (succ : String → List String) (s : List String) : List String :=
  uniq (s ++ s.flatMap succ)

/-- Vertices reachable from `u` along at most `fuel` edges.  This is
the semantics of the transitive closures that networkx computes for
`strongly_connected_components` and `condensation`. -/
def reachN (succ : String → List String) : Nat → String → List String
  | 0, u => [u]
  | fuel + 1, u => step succ (reachN succ fuel u)

/-- Reachability with the saturating fuel `univ.length`: on a graph
whose vertices all lie in `univ`, `reachN` is stable from that fuel
on, so this is plain reachability. -/
def reaches (succ : String → List String) (univ : List String) (u v : String) : Prop :=
  v ∈ reachN succ univ.length u

instance (succ : String → List String) (univ : List String) (u v : String) :
    Decidable (reaches succ univ u v) := by
  unfold reaches; infer_instance

/-- Mutual reachability: `u` and `v` lie in the same SCC. -/
def sameSCC (succ : String → List String) (univ : List String) (u v : String) : Prop :=
  reaches succ univ u v ∧ reaches succ univ v u

instance (succ : String → List String) (univ : List String) (u v : String) :
    Decidable (sameSCC succ univ u v) := by
  unfold sameSCC; infer_instance

/-- The SCC of `u`, enumerated in vertex order. -/
def sccOf (succ : String → List String) (univ : List String) (u : String) : List String :=
  univ.filter (fun v => decide (sameSCC succ univ u v))

/-- All SCC classes of the graph, one entry per class, in order of
each class's first member (networkx returns the same family of sets;
only the enumeration order of the family differs, and every consumer
in the source re-sorts or re-aggregates it). -/
def sccClasses (succ : String → List String) (univ : List String) : List (List String) :=
  uniq (univ.map (sccOf succ univ))

end Gr

namespace Cycles

/-- Node record as consumed by `find_cycles` (keys `hash`, `name`,
`module`, `file_path`; `module` may be absent). -/
structure CNode where
  hash : String
  name : String := ""
  module : Option String := none
  file_path : String := ""
deriving DecidableEq, Repr

/-- Edge record as consumed by `find_cycles` (`call_count` read with
`e.get("call_count", 1)`). -/
structure CEdge where
  caller_hash : String
  callee_hash : String
  call_count : Option Int := none
deriving DecidableEq, Repr

/-- Weight that `nx.DiGraph.add_edge` stores: `e.get("call_count", 1)`. -/
def weight (e : CEdge) : Int := e.call_count.getD 1

/-- Vertex list of the digraph `G`: the listed nodes, then any edge
endpoint not already present (as `nx.DiGraph.add_edge` adds them). -/
def gVertices (nodes : List CNode) (edges : List CEdge) : List String :=
  uniq (nodes.map (·.hash) ++ edges.flatMap (fun e => [e.caller_hash, e.callee_hash]))

/-- Successor function of the digraph. -/
def gSucc (edges : List CEdge) (u : String) : List String :=
  uniq ((edges.filter (fun e => e.caller_hash = u)).map (·.callee_hash))

/-- Parallel `(u, v)` entries collapsed to a single edge whose
`call_count` is the last one given, as repeated `add_edge` calls
overwrite the stored attribute. -/
def dedupEdges (edges : List CEdge) : List CEdge :=
  (uniq (edges.map (fun e => (e.caller_hash, e.callee_hash)))).filterMap
    (fun k => edges.reverse.find? (fun e => (e.caller_hash, e.callee_hash) = k))

/-- Dict `node_map = {n.hash: n}`, last binding wins. -/
def nodeMap (nodes : List CNode) (h : String) : Option CNode :=
  nodes.reverse.find? (fun n => n.hash = h)

/-- Break-suggestion record of `find_cycles`. -/
structure BreakSuggestion where
  caller_hash : String
  callee_hash : String
  caller_name : String
  callee_name : String
  caller_module : String
  callee_module : String
  call_count : Int
deriving DecidableEq, Repr

/-- One annotated cycle of the `find_cycles` result. -/
structure CycleResult where
  size : Nat
  cross_module : Bool
  modules : List String
  nodes : List CNode
  break_suggestion : Option BreakSuggestion
deriving DecidableEq, Repr

/-- Python `min(intra, key=call_count)`: first element attaining the
minimum weight. -/
def minByWeight (e0 : CEdge) (rest : List CEdge) : CEdge :=
  rest.foldl (fun acc e => if weight e < weight acc then e else acc) e0

/-- Intra-SCC edges of a class `scc`: the collapsed edges with both
endpoints inside the class (`G.edges(scc)` filtered by target). -/
def intraEdges (edges : List CEdge) (scc : List String) : List CEdge :=
  (dedupEdges edges).filter
    (fun e => decide (e.caller_hash ∈ scc) && decide (e.callee_hash ∈ scc))

/-- Annotation of one SCC class (the body of the `for scc in ...` loop
of `find_cycles`). -/
def annotateSCC (nodes : List CNode) (edges : List CEdge) (scc : List String) : CycleResult :=
  let scc_nodes := scc.filterMap (nodeMap nodes)
  let modules_in_cycle := uniq ((scc_nodes.filterMap (·.module)).filter (fun m => m ≠ ""))
  let cross_module := modules_in_cycle.length > 1
  let intra := intraEdges edges scc
  let break_suggestion :=
    match intra with
    | [] => none
    | e0 :: rest =>
      let weakest := minByWeight e0 rest
      let caller_info := nodeMap nodes weakest.caller_hash
      let callee_info := nodeMap nodes weakest.callee_hash
      some { caller_hash := weakest.caller_hash
             callee_hash := weakest.callee_hash
             caller_name := (caller_info.map (·.name)).getD weakest.caller_hash
             callee_name := (callee_info.map (·.name)).getD weakest.callee_hash
             caller_module := ((caller_info.bind (·.module))).getD ""
             callee_module := ((callee_info.bind (·.module))).getD ""
             call_count := weight weakest }
  { size := scc.length
    cross_module := cross_module
    modules := modules_in_cycle.insertionSort (fun a b => a ≤ b)
    nodes := scc_nodes
    break_suggestion := break_suggestion }

/-- The SCC classes of size greater than one, sorted by descending
size (stable) and truncated to `max_results`. -/
def bigSCCsSorted (nodes : List CNode) (edges : List CEdge) : List (List String) :=
  ((Gr.sccClasses (gSucc edges) (gVertices nodes edges)).filter
    (fun c => 1 < c.length)).insertionSort (fun a b => b.length ≤ a.length)

/-- Embedding of `find_cycles` (cycles.py lines 12-63). -/
def find_cycles (nodes : List CNode) (edges : List CEdge)
    (max_results : Nat := 20) : List CycleResult :=
  ((bigSCCsSorted nodes edges).take max_results).map (annotateSCC nodes edges)

/-- Scenario B nodes: A, B in module m1 and C in module m2. -/
def scnB_nodes : List CNode :=
  [{ hash := "A", name := "fa", module := some "m1" },
   { hash := "B", name := "fb", module := some "m1" },
   { hash := "C", name := "fc", module := some "m2" }]

/-- Scenario B edges: A calls B 100 times, B calls C 5 times, C calls
A 50 times. -/
def scnB_edges : List CEdge :=
  [{ caller_hash := "A", callee_hash := "B", call_count := some 100 },
   { caller_hash := "B", callee_hash := "C", call_count := some 5 },
   { caller_hash := "C", callee_hash := "A", call_count := some 50 }]

end Cycles

/-- Model of Python `round(q, 6)` on an exact rational. -/
def round6 (q : ℚ) : ℚ := ((round (q * 1000000) : ℤ) : ℚ) / 1000000

/-- Model of Python `round(q, 4)` on an exact rational. -/
def round4 (q : ℚ) : ℚ := ((round (q * 10000) : ℤ) : ℚ) / 10000

namespace Enrich

/-- Internal call-graph edges of `_build_graph`: edge rows are kept
only when both endpoints are listed nodes. -/
def edgesIn (nodes : List String) (edges : List (String × String)) :
    List (String × String) :=
  edges.filter (fun e => decide (e.1 ∈ nodes) && decide (e.2 ∈ nodes))

/-- Successor function of the internal call graph. -/
def succE (edges : List (String × String)) (u : String) : List String :=
  uniq ((edges.filter (fun e => e.1 = u)).map (·.2))

/-- Vertex list of the internal call graph. -/
def vertsE (nodes : List String) : List String := uniq nodes

/-- SCC classes of the internal call graph, as computed by
`nx.strongly_connected_components` inside `nx.condensation`. -/
def classesE (nodes : List String) (edges : List (String × String)) :
    List (List String) :=
  Gr.sccClasses (succE (edgesIn nodes edges)) (vertsE nodes)

/-- Condensation edge relation: class `c` calls into class `c2`. -/
def condIsEdge (edges : List (String × String)) (c c2 : List String) : Bool :=
  !(c == c2) && edges.any (fun e => decide (e.1 ∈ c) && decide (e.2 ∈ c2))

/-- Kahn topological sort with explicit fuel: repeatedly emit the
first remaining vertex with no incoming edge from the rest. -/
def topoAux {κ : Type} [BEq κ] (isEdge : κ → κ → Bool) :
    Nat → List κ → List κ → List κ
  | 0, rem, acc => acc ++ rem
  | f + 1, rem, acc =>
    match rem.find? (fun c => !(rem.any (fun p => !(p == c) && isEdge p c))) with
    | none => acc ++ rem
    | some c => topoAux isEdge f (rem.erase c) (acc ++ [c])

/-- Topological order of a DAG given by an edge predicate (the result
of `nx.topological_sort`; any valid order yields the same DP values
below, since the recurrence has a unique solution on a DAG). -/
def topoSort {κ : Type} [BEq κ] (vertices : List κ) (isEdge : κ → κ → Bool) : List κ :=
  topoAux isEdge vertices.length vertices []

/-- Association-list read with default 0 (`counts[node]`). -/
def cGet {κ : Type} [BEq κ] (cs : List (κ × Nat)) (k : κ) : Nat :=
  ((cs.find? (fun p => p.1 == k)).map (·.2)).getD 0

/-- Association-list increment (`counts[pred] += d`). -/
def cBump {κ : Type} [BEq κ] (cs : List (κ × Nat)) (k : κ) (d : Nat) : List (κ × Nat) :=
  cs.map (fun p => if p.1 == k then (p.1, p.2 + d) else p)

/-- Embedding of `_reachable_counts` (enrich.py lines 186-192):
`counts = {n: scc_size[n]}`, then for `node` in reversed topological
order, `counts[pred] += counts[node]` for each predecessor `pred`. -/
def reachable_counts {κ : Type} [BEq κ] (vertices : List κ) (isEdge : κ → κ → Bool)
    (size : κ → Nat) : List (κ × Nat) :=
  let topo := topoSort vertices isEdge
  topo.reverse.foldl
    (fun cs node =>
      let preds := vertices.filter (fun p => !(p == node) && isEdge p node)
      preds.foldl (fun cs2 p => cBump cs2 p (cGet cs2 node)) cs)
    (vertices.map (fun c => (c, size c)))

/-- The SCC class containing hash `h`. -/
def classOf (nodes : List String) (edges : List (String × String)) (h : String) :
    Option (List String) :=
  (classesE nodes edges).find? (fun c => decide (h ∈ c))

/-- Embedding of the `transitive_callees` computation of
`_compute_reachability` (enrich.py lines 175-205): the forward DP
value of the node's SCC in the condensation, minus one. -/
def transitive_callees (nodes : List String) (edges : List (String × String))
    (h : String) : Option Nat :=
  let cls := classesE nodes edges
  let ie := condIsEdge (edgesIn nodes edges)
  let fwd := reachable_counts cls ie (·.length)
  (classOf nodes edges h).map (fun c => cGet fwd c - 1)

/-- Embedding of the `transitive_callers` computation: the same DP on
the reversed condensation. -/
def transitive_callers (nodes : List String) (edges : List (String × String))
    (h : String) : Option Nat :=
  let cls := classesE nodes edges
  let ie := fun c c2 => condIsEdge (edgesIn nodes edges) c2 c
  let rev := reachable_counts cls ie (·.length)
  (classOf nodes edges h).map (fun c => cGet rev c - 1)

/-- Inclusive descendant count stated by the spec: the number of
vertices reachable from `h` (including `h` itself). -/
def inclusiveDescCount (nodes : List String) (edges : List (String × String))
    (h : String) : Nat :=
  (Gr.reachN (succE (edgesIn nodes edges)) (vertsE nodes).length h).length

/-- Size of the SCC of `h`. -/
def sccSizeOf (nodes : List String) (edges : List (String × String)) (h : String) : Nat :=
  (Gr.sccOf (succE (edgesIn nodes edges)) (vertsE nodes) h).length

/-- Spec-side `transitive_callees`: inclusive descendant count of the
node's SCC minus `scc_size` (claim C2's wording). -/
def spec_transitive_callees (nodes : List String) (edges : List (String × String))
    (h : String) : Nat :=
  inclusiveDescCount nodes edges h - sccSizeOf nodes edges h

/-- Diamond condensation: `a` calls `b` and `c`, which both call `d`.
All SCCs are singletons. -/
def diamond_nodes : List String := ["a", "b", "c", "d"]

/-- Diamond edges. -/
def diamond_edges : List (String × String) :=
  [("a", "b"), ("a", "c"), ("b", "d"), ("c", "d")]

/-- Per-node feature subset produced by `_compute_centrality`. -/
structure CentFeat where
  betweenness_centrality : ℚ
  pagerank : ℚ
  hub_score : ℚ
  authority_score : ℚ
  clustering_coeff : ℚ
deriving DecidableEq, Repr

/-- Embedding of `_compute_centrality` (enrich.py lines 210-240).  The
networkx calls are modelled by their outcomes: `bc`, `pr` and `clust`
are the returned score maps, and `hitsRes` is `some (hubs, auths)` on
convergence and `none` when `nx.hits` raises
`PowerIterationFailedConvergence`, in which case the `except` branch
zeroes both maps. -/
def compute_centrality (gnodes : List String) (bc pr clust : String → ℚ)
    (hitsRes : Option ((String → ℚ) × (String → ℚ))) : List (String × CentFeat) :=
  let hubs := match hitsRes with
    | some hp => hp.1
    | none => fun _ => 0
  let auths := match hitsRes with
    | some hp => hp.2
    | none => fun _ => 0
  gnodes.map (fun h =>
    (h, { betweenness_centrality := round6 (bc h)
          pagerank := round6 (pr h)
          hub_score := round6 (hubs h)
          authority_score := round6 (auths h)
          clustering_coeff := round4 (clust h) }))

/-- Partial feature map produced by one enrichment step. -/
def FeatMap : Type := List (String × ℚ)

/-- Python `dict.update`: existing keys take the new value in place,
new keys are appended. -/
def updateVals (old new : List (String × ℚ)) : List (String × ℚ) :=
  old.map (fun p => (new.reverse.find? (fun q => q.1 == p.1)).getD p)
    ++ new.filter (fun q => old.all (fun p => p.1 ≠ q.1))

/-- One pass of the merge loop body for a single step result. -/
def mergeData (merged : List (String × List (String × ℚ)))
    (data : List (String × List (String × ℚ))) :
    List (String × List (String × ℚ)) :=
  merged.map (fun p =>
    (p.1, (data.filter (fun q => q.1 == p.1)).foldl (fun fm q => updateVals fm q.2) p.2))

/-- Embedding of the step loop of `enrich` (enrich.py lines 440-448):
`merged = {h: {} for h in node_meta}` and then `data = fn()` followed
by the merge, for each step in order.  A step is an `Except` value
because `fn()` may raise; the loop contains no handler, so a raising
step propagates out of `enrich` (this is the Python exception
semantics of the loop). -/
def merge_steps (hashes : List String)
    (steps : List (Except String (List (String × List (String × ℚ))))) :
    Except String (List (String × List (String × ℚ))) :=
  steps.foldlM (fun merged st => do
    let data ← st
    pure (mergeData merged data))
    (hashes.map (fun h => (h, ([] : List (String × ℚ)))))

end Enrich

namespace Pivot

/-- Row of the `nodes` table, joined (LEFT) with its `node_features`
row: the columns that the explore queries read.  `none` is SQL NULL. -/
structure SqlNode where
  hash : String
  name : String := ""
  module : Option String := none
  kind : Option String := none
  risk : Option String := none
  caller_count : Int := 0
  callee_count : Int := 0
  complexity : Int := 0
  scc_size : Option Int := none
  community_dominant_mod : Option String := none
  community_alignment : Option Int := none
deriving DecidableEq, Repr

/-- Row of the `edges` table. -/
structure SqlEdge where
  caller_hash : String
  callee_hash : String
  call_count : Int := 1
deriving DecidableEq, Repr

/-- The internal-node condition `n.hash NOT LIKE 'ext:%'`. -/
def isInternal (n : SqlNode) : Bool := !(strStarts n.hash "ext:")

/-- The `_kinds_clause` filter: an empty kind list is falsy in Python
and produces no clause; otherwise `n.kind IN (...)`, which is false
for NULL kind. -/
def kindOk (kinds : List String) (n : SqlNode) : Bool :=
  if kinds.isEmpty then true
  else match n.kind with
    | none => false
    | some k => decide (k ∈ kinds)

/-- The node rows a pivot query aggregates:
`WHERE n.hash NOT LIKE 'ext:%' {kinds clause}`. -/
def filteredNodes (nodes : List SqlNode) (kinds : List String) : List SqlNode :=
  nodes.filter (fun n => isInternal n && kindOk kinds n)

/-- A resolved dimension: the value its SQL expression takes on a
joined node row (`_resolve_dims` output; a CASE bucket expression and
a simple column are both of this shape). -/
def Dim : Type := SqlNode → Option String

/-- A measure: the value its aggregate SQL expression takes on a
group of rows (`measure_sql` output).  `symbol_count` is `COUNT(*)`,
that is `aggCount`. -/
def Measure : Type := List SqlNode → ℚ

/-- The `COUNT(*)` aggregate, i.e. the `symbol_count` measure. -/
def aggCount : Measure := fun g => (g.length : ℚ)

/-- GROUP BY key of a row for a dimension list. -/
def groupKey (dims : List Dim) (n : SqlNode) : List (Option String) :=
  dims.map (fun d => d n)

/-- SQL GROUP BY over the dimension expressions: one group per
distinct key (SQLite groups NULLs together), listed in
first-occurrence order. -/
def groupsBy (dims : List Dim) (rows : List SqlNode) :
    List (List (Option String) × List SqlNode) :=
  (uniq (rows.map (groupKey dims))).map
    (fun k => (k, rows.filter (fun n => decide (groupKey dims n = k))))

/-- Measure values of one group: the SELECTed aggregate columns. -/
def valsOf (measures : List (String × Measure)) (g : List SqlNode) : List (String × ℚ) :=
  measures.map (fun m => (m.1, m.2 g))

/-- Leaf (child) row of the pivot tree. -/
structure PRow where
  key : List (String × Option String)
  values : List (String × ℚ)
deriving DecidableEq, Repr

/-- Root row of the pivot tree. -/
structure RootRow where
  key : List (String × Option String)
  values : List (String × ℚ)
  children : List PRow
deriving DecidableEq, Repr

/-- The sort key `-(r["values"].get("symbol_count") or 0)`. -/
def symCountVal (values : List (String × ℚ)) : ℚ :=
  (((values.find? (fun p => p.1 == "symbol_count")).map (·.2)).getD 0)

/-- Root row of a one-dimension pivot: one group of the single GROUP
BY query. -/
def mkRow1 (d0 : String × Dim) (measures : List (String × Measure))
    (g : List (Option String) × List SqlNode) : RootRow :=
  { key := [(d0.1, g.1.getD 0 none)]
    values := valsOf measures g.2
    children := [] }

/-- Children of the root row with first-dimension value `pk`: the
leaf-level groups whose first key component is `pk`. -/
def childrenOf (d0 d1 : String × Dim) (measures : List (String × Measure))
    (leafGroups : List (List (Option String) × List SqlNode))
    (pk : Option String) : List PRow :=
  (leafGroups.filter (fun lg => decide (lg.1.getD 0 none = pk))).map
    (fun lg =>
      { key := [(d0.1, lg.1.getD 0 none), (d1.1, lg.1.getD 1 none)]
        values := valsOf measures lg.2 })

/-- Root row of a two-or-more-dimension pivot: one parent-level group
with its children attached, the children sorted descending by
`symbol_count` (stable). -/
def mkRow2 (d0 d1 : String × Dim) (measures : List (String × Measure))
    (leafGroups : List (List (Option String) × List SqlNode))
    (pg : List (Option String) × List SqlNode) : RootRow :=
  { key := [(d0.1, pg.1.getD 0 none)]
    values := valsOf measures pg.2
    children := (childrenOf d0 d1 measures leafGroups (pg.1.getD 0 none)).insertionSort
      (fun a b => symCountVal b.values ≤ symCountVal a.values) }

/-- Embedding of the pivot-tree construction of `fetch_pivot`
(explore.py lines 470-518) for one and for two-or-more resolved
dimensions.  Grouping is over the first `min(2, n)` dimensions; the
parent level is a separate GROUP BY over the first dimension; root
rows and children are sorted descending by `symbol_count` (stable). -/
def fetch_pivot_rows (nodes : List SqlNode) (dims : List (String × Dim))
    (measures : List (String × Measure)) (kinds : List String) : List RootRow :=
  let base := filteredNodes nodes kinds
  match dims with
  | [] => []
  | [d0] =>
    ((groupsBy [d0.2] base).map (mkRow1 d0 measures)).insertionSort
      (fun a b => symCountVal b.values ≤ symCountVal a.values)
  | d0 :: d1 :: _ =>
    ((groupsBy [d0.2] base).map
        (mkRow2 d0 d1 measures (groupsBy [d0.2, d1.2] base))).insertionSort
      (fun a b => symCountVal b.values ≤ symCountVal a.values)

/-- Leaf rows of a pivot result: the children when present (two or
more dimensions), else the root rows themselves (one dimension). -/
def leafValues (rows : List RootRow) : List (List (String × ℚ)) :=
  rows.flatMap (fun r => if r.children.isEmpty then [r.values] else r.children.map (·.values))

/-- The `_DIM_SRC` / `_DIM_TGT` mapping of `fetch_graph_edges`: only
these five dimensions have induced-subgraph support; the SQL
expression pairs are the same column read on the caller and the
callee side.  `symbol` is `module || '::' || name`, NULL when the
module is NULL. -/
def dimEval (dimension : String) : Option Dim :=
  match dimension with
  | "module" => some (fun n => n.module)
  | "risk" => some (fun n => n.risk)
  | "kind" => some (fun n => n.kind)
  | "symbol" => some (fun n => n.module.map (fun m => m ++ "::" ++ n.name))
  | "community_dominant_mod" => some (fun n => n.community_dominant_mod)
  | _ => none

/-- The `AVAILABLE_DIMENSIONS` table of simple pivot dimensions
(explore.py lines 16-28), as value functions on a joined row.  Every
name here resolves in `_resolve_dims` (the enriched ones only when
node features are present). -/
def availableDimEval (dimension : String) : Option Dim :=
  match dimension with
  | "module" => some (fun n => n.module)
  | "risk" => some (fun n => n.risk)
  | "kind" => some (fun n => n.kind)
  | "symbol" => some (fun n => n.module.map (fun m => m ++ "::" ++ n.name))
  | "dead" => some (fun n => some (if n.caller_count = 0 then "dead" else "alive"))
  | "high_risk" => some (fun n =>
      some (if n.risk = some "high" ∨ n.risk = some "critical" then "high-risk" else "normal"))
  | "in_cycle" => some (fun n =>
      some (if 1 < n.scc_size.getD 1 then "in-cycle" else "clean"))
  | "community_dominant_mod" => some (fun n => n.community_dominant_mod)
  | "community_alignment" => some (fun n =>
      some (if n.community_alignment.getD 1 = 1 then "aligned" else "misaligned"))
  | _ => none

/-- One edge-table row joined to its caller and callee node rows
(INNER JOIN on the hash primary key). -/
def joinEdges (nodes : List SqlNode) (edges : List SqlEdge) :
    List (SqlEdge × SqlNode × SqlNode) :=
  edges.filterMap (fun e =>
    (nodes.find? (fun n => n.hash == e.caller_hash)).bind (fun n1 =>
      (nodes.find? (fun n => n.hash == e.callee_hash)).map (fun n2 => (e, n1, n2))))

/-- Induced-subgraph edge of `fetch_graph_edges`. -/
structure GEdge where
  source : String
  target : String
  weight : Int
deriving DecidableEq, Repr

/-- The joined edge rows that the `fetch_graph_edges` WHERE clause
keeps for a dimension value function `f`: internal endpoints, both
dimension values non-NULL and distinct, kind filter on both sides. -/
def qualRows (nodes : List SqlNode) (edges : List SqlEdge) (f : Dim)
    (kinds : List String) : List (SqlEdge × SqlNode × SqlNode) :=
  (joinEdges nodes edges).filter (fun t =>
    isInternal t.2.1 && isInternal t.2.2 &&
    (f t.2.1).isSome && (f t.2.2).isSome &&
    decide (f t.2.1 ≠ f t.2.2) &&
    kindOk kinds t.2.1 && kindOk kinds t.2.2)

/-- Embedding of `fetch_graph_edges` (explore.py lines 538-578): one
output edge per distinct `(source, target)` pair of dimension values
among the qualifying joined rows, with `weight = COUNT(*)` over the
group, ordered by descending weight; the empty list for a dimension
without `_DIM_SRC` support. -/
def fetch_graph_edges (nodes : List SqlNode) (edges : List SqlEdge)
    (dimension : String) (kinds : List String) : List GEdge :=
  match dimEval dimension with
  | none => []
  | some f =>
    let qual := qualRows nodes edges f kinds
    let keys := uniq (qual.map (fun t => (f t.2.1, f t.2.2)))
    let grouped := keys.filterMap (fun k =>
      match k with
      | (some s, some t) =>
        some { source := s, target := t
               weight := ((qual.filter
                 (fun r => decide ((f r.2.1, f r.2.2) = k))).length : Int) : GEdge }
      | _ => none)
    grouped.insertionSort (fun a b => b.weight ≤ a.weight)

/-- Spec-side weight of claim C8: the call count between two groups,
i.e. the sum of `call_count` over the qualifying joined rows from the
source group to the target group. -/
def spec_call_count_between (nodes : List SqlNode) (edges : List SqlEdge) (f : Dim)
    (kinds : List String) (s t : String) : Int :=
  ((qualRows nodes edges f kinds).filter
    (fun r => decide (f r.2.1 = some s ∧ f r.2.2 = some t))).map (fun r => r.1.call_count)
    |>.sum

/-- Two-node, one-edge snapshot for the C8 counterexample: `f1` in
module `m1` calls `f2` in module `m2` five times. -/
def c8_nodes : List SqlNode :=
  [{ hash := "h1", name := "f1", module := some "m1", kind := some "function", caller_count := 0 },
   { hash := "h2", name := "f2", module := some "m2", kind := some "function", caller_count := 1 }]

/-- The single C8 counterexample edge with `call_count = 5`. -/
def c8_edges : List SqlEdge :=
  [{ caller_hash := "h1", callee_hash := "h2", call_count := 5 }]

end Pivot

namespace Blast

/-- Node record stored in `all_nodes` (hash-keyed dict of non-external
nodes). -/
structure BNode where
  hash : String
  name : String := ""
  module : Option String := none
deriving DecidableEq, Repr

/-- Pre-built reverse adjacency `{callee_hash: [caller_hash, ...]}`,
as an association list. -/
abbrev RevAdj : Type := List (String × List String)

/-- `reverse_adj.get(current, [])`. -/
def adjGet (radj : RevAdj) (h : String) : List String :=
  ((radj.find? (fun p => p.1 == h)).map (·.2)).getD []

/-- Vertices that can ever be enqueued: the target and every caller
listed in the reverse adjacency. -/
def adjUniverse (target : String) (radj : RevAdj) : List String :=
  target :: radj.flatMap (·.2)

/-- Loop-iteration budget contributed by one vertex: one pop of the
vertex itself plus one pop per queue entry it can push. -/
def nodeWeight (radj : RevAdj) (h : String) : Nat := 1 + (adjGet radj h).length

/-- Remaining budget: total weight of the not-yet-visited universe. -/
def pending (radj : RevAdj) (univ : List String) (visited : List (String × Nat)) : Nat :=
  ((univ.filter (fun h => !(visited.any (fun p => p.1 == h)))).map (nodeWeight radj)).sum

/-- The BFS loop of `compute_blast_radius` (centrality.py lines
65-76): pop `(current, depth)`; skip it if already visited or beyond
`max_depth`; otherwise record it and enqueue its unvisited callers at
`depth + 1` when `depth < max_depth`.  The `while queue` loop is
embedded with a fuel counter that bounds the number of iterations;
`compute_blast_radius` passes a fuel that provably exceeds the total
number of pops, so the fuel case is never the reason the recursion
stops (`bfs_master` below). -/
def bfsFuel (radj : RevAdj) (maxD : Nat) :
    Nat → List (String × Nat) → List (String × Nat) → List (String × Nat)
  | 0, visited, _ => visited
  | _ + 1, visited, [] => visited
  | fuel + 1, visited, (c, d) :: rest =>
    if visited.any (fun p => p.1 == c) || maxD < d then
      bfsFuel radj maxD fuel visited rest
    else
      let visited2 := visited ++ [(c, d)]
      let pushed :=
        if d < maxD then
          ((adjGet radj c).filter
            (fun x => !(visited2.any (fun p => p.1 == x)))).map (fun x => (x, d + 1))
        else []
      bfsFuel radj maxD fuel visited2 (rest ++ pushed)

/-- The `visited` dict computed by the BFS of `compute_blast_radius`,
in insertion order. -/
def bfsVisited (target : String) (radj : RevAdj) (maxD : Nat) : List (String × Nat) :=
  let univ := adjUniverse target radj
  bfsFuel radj maxD (1 + pending radj univ []) [] [(target, 0)]

/-- Result record of `compute_blast_radius`.  Each affected node is
paired with the `depth` value attached to it. -/
structure BlastResult where
  target : BNode
  affected_count : Nat
  affected_nodes : List (BNode × Nat)
  modules_affected : List String
  max_depth_reached : Nat
deriving DecidableEq, Repr

/-- Embedding of `compute_blast_radius` (centrality.py lines 49-96).
`modules_affected` is a Python set materialized as a list; it is
enumerated here in first-occurrence order. -/
def compute_blast_radius (target_hash : String) (target_node : BNode)
    (reverse_adj : RevAdj) (all_nodes : List (String × BNode))
    (max_depth : Nat := 5) : BlastResult :=
  let visited := bfsVisited target_hash reverse_adj max_depth
  let affected : List (BNode × Nat) := visited.filterMap (fun p =>
    if p.1 = target_hash then none
    else ((all_nodes.find? (fun q => q.1 == p.1)).map (fun q => (q.2, p.2))))
  { target := target_node
    affected_count := affected.length
    affected_nodes := affected.insertionSort (fun a b => a.2 ≤ b.2)
    modules_affected := uniq ((affected.filterMap (fun p => p.1.module)).filter (fun m => m ≠ ""))
    max_depth_reached := max_depth }

/-- Scenario F reverse adjacency for the chain B calls A, C calls B,
D calls C, E calls D, F calls E. -/
def scnF_radj : RevAdj :=
  [("A", ["B"]), ("B", ["C"]), ("C", ["D"]), ("D", ["E"]), ("E", ["F"])]

/-- Scenario F node table. -/
def scnF_nodes : List (String × BNode) :=
  [("A", { hash := "A", module := some "m" }),
   ("B", { hash := "B", module := some "m" }),
   ("C", { hash := "C", module := some "m" }),
   ("D", { hash := "D", module := some "m" }),
   ("E", { hash := "E", module := some "m" }),
   ("F", { hash := "F", module := some "m" })]

end Blast

namespace Diff

/-- Scenario E snapshot: five nodes with pairwise-distinct
`(name, module)` keys. -/
def scnE_nodes : List DNode :=
  [{ name := "f1", module := "m", hash := "x:1" },
   { name := "f2", module := "m", hash := "x:2" },
   { name := "f3", module := "m", hash := "x:3" },
   { name := "f4", module := "n", hash := "x:4" },
   { name := "f5", module := "n", hash := "x:5" }]

/-- Fifty-one nodes with pairwise-distinct names, used to exercise
the 50-entry truncation of `compute_diff`. -/
def manyNodes : List DNode :=
  (List.range 51).map (fun i => { name := toString i, module := "m", hash := "h" })

end Diff

namespace Pivot

/-- Scenario D snapshot: eight internal nodes over modules core (3),
auth (3) and store (2), with a mix of kinds. -/
def scnD_nodes : List SqlNode :=
  [{ hash := "n1", name := "a1", module := some "core", kind := some "function" },
   { hash := "n2", name := "a2", module := some "core", kind := some "function" },
   { hash := "n3", name := "a3", module := some "core", kind := some "class" },
   { hash := "n4", name := "b1", module := some "auth", kind := some "function" },
   { hash := "n5", name := "b2", module := some "auth", kind := some "method" },
   { hash := "n6", name := "b3", module := some "auth", kind := some "method" },
   { hash := "n7", name := "c1", module := some "store", kind := some "function" },
   { hash := "n8", name := "c2", module := some "store", kind := some "class" }]

end Pivot

/-!
Theorems.  Helper lemmas come first, then one named theorem per
claim (with a witness or counterexample theorem where required).
-/

theorem mem_uniqAux {α : Type} [DecidableEq α] {a : α} :
    ∀ {l seen : List α}, a ∈ uniqAux seen l ↔ a ∈ l ∧ a ∉ seen := by
  intro l
  induction l with
  | nil => intro seen; simp [uniqAux]
  | cons b t ih =>
    intro seen
    by_cases hb : b ∈ seen
    · rw [uniqAux, if_pos hb, ih]
      constructor
      · rintro ⟨h1, h2⟩
        exact ⟨List.mem_cons_of_mem _ h1, h2⟩
      · rintro ⟨h1, h2⟩
        rcases List.mem_cons.mp h1 with rfl | h1
        · exact absurd hb h2
        · exact ⟨h1, h2⟩
    · rw [uniqAux, if_neg hb]
      simp only [List.mem_cons, ih]
      constructor
      · rintro (rfl | ⟨h1, h2⟩)
        · exact ⟨Or.inl rfl, hb⟩
        · refine ⟨Or.inr h1, ?_⟩
          intro hs
          exact h2 (Or.inr hs)
      · rintro ⟨rfl | h1, h2⟩
        · exact Or.inl rfl
        · by_cases hab : a = b
          · exact Or.inl hab
          · refine Or.inr ⟨h1, ?_⟩
            intro hs
            rcases hs with h | h
            · exact hab h
            · exact h2 h

theorem mem_uniq {α : Type} [DecidableEq α] {a : α} {l : List α} :
    a ∈ uniq l ↔ a ∈ l := by
  simp [uniq, mem_uniqAux]

theorem nodup_uniqAux {α : Type} [DecidableEq α] :
    ∀ {l seen : List α}, (uniqAux seen l).Nodup := by
  intro l
  induction l with
  | nil => intro seen; simp [uniqAux]
  | cons b t ih =>
    intro seen
    by_cases hb : b ∈ seen
    · rw [uniqAux, if_pos hb]
      exact ih
    · rw [uniqAux, if_neg hb]
      refine List.nodup_cons.mpr ⟨?_, ih⟩
      intro hmem
      exact (mem_uniqAux.mp hmem).2 (List.mem_cons_self _ _)

theorem nodup_uniq {α : Type} [DecidableEq α] {l : List α} : (uniq l).Nodup :=
  nodup_uniqAux

theorem uniqAux_congr {α : Type} [DecidableEq α] :
    ∀ {l seen₁ seen₂ : List α}, (∀ x ∈ l, x ∈ seen₁ ↔ x ∈ seen₂) →
      uniqAux seen₁ l = uniqAux seen₂ l := by
  intro l
  induction l with
  | nil => intro _ _ _; rfl
  | cons b t ih =>
    intro seen₁ seen₂ h
    have hb := h b (List.mem_cons_self _ _)
    by_cases hb1 : b ∈ seen₁
    · rw [uniqAux, uniqAux, if_pos hb1, if_pos (hb.mp hb1)]
      exact ih (fun x hx => h x (List.mem_cons_of_mem _ hx))
    · rw [uniqAux, uniqAux, if_neg hb1, if_neg (fun hc => hb1 (hb.mpr hc))]
      refine congrArg _ (ih ?_)
      intro x hx
      simp only [List.mem_cons]
      rw [h x (List.mem_cons_of_mem _ hx)]

theorem filter_uniqAux {α : Type} [DecidableEq α] (p : α → Bool) :
    ∀ {l seen : List α}, (uniqAux seen l).filter p = uniqAux seen (l.filter p) := by
  intro l
  induction l with
  | nil => intro seen; rfl
  | cons b t ih =>
    intro seen
    by_cases hb : b ∈ seen
    · by_cases hp : p b
      · rw [uniqAux, if_pos hb, List.filter_cons, if_pos hp, uniqAux, if_pos hb, ih]
      · rw [uniqAux, if_pos hb, List.filter_cons, if_neg hp, ih]
    · by_cases hp : p b
      · rw [uniqAux, if_neg hb, List.filter_cons, if_pos hp, List.filter_cons, if_pos hp,
          uniqAux, if_neg hb, ih]
      · rw [uniqAux, if_neg hb, List.filter_cons, if_neg hp, List.filter_cons, if_neg hp, ih]
        refine uniqAux_congr ?_
        intro x hx
        have hxb : x ≠ b := by
          rintro rfl
          exact hp (List.of_mem_filter hx)
        simp [List.mem_cons, hxb]

theorem filter_uniq {α : Type} [DecidableEq α] (p : α → Bool) (l : List α) :
    (uniq l).filter p = uniq (l.filter p) := filter_uniqAux p

theorem uniq_eq_self {α : Type} [DecidableEq α] :
    ∀ {l : List α}, l.Nodup → uniq l = l := by
  have aux : ∀ (l seen : List α), l.Nodup → (∀ x ∈ l, x ∉ seen) → uniqAux seen l = l := by
    intro l
    induction l with
    | nil => intro seen _ _; rfl
    | cons b t ih =>
      intro seen hnd hdisj
      rw [uniqAux, if_neg (hdisj b (List.mem_cons_self _ _))]
      refine congrArg _ (ih _ (List.Nodup.of_cons hnd) ?_)
      intro x hx
      simp only [List.mem_cons]
      rintro (rfl | hs)
      · exact (List.nodup_cons.mp hnd).1 hx
      · exact hdisj x (List.mem_cons_of_mem _ hx) hs
  intro l h
  exact aux l [] h (by simp)

theorem sum_group_lengths {α κ : Type} [DecidableEq κ] (f : α → κ) :
    ∀ (ks : List κ) (l : List α), ks.Nodup → (∀ a ∈ l, f a ∈ ks) →
      (ks.map (fun k => (l.filter (fun a => decide (f a = k))).length)).sum = l.length := by
  intro ks
  induction ks with
  | nil =>
    intro l _ hcov
    cases l with
    | nil => rfl
    | cons a t => exact absurd (hcov a (List.mem_cons_self _ _)) (List.not_mem_nil _)
  | cons k kt ih =>
    intro l hnd hcov
    have hsplit : (l.filter (fun a => decide (f a = k))).length
        + (l.filter (fun a => !decide (f a = k))).length = l.length := by
      rw [← List.countP_eq_length_filter, ← List.countP_eq_length_filter]
      rw [List.length_eq_countP_add_countP (fun a => decide (f a = k)) l]
      congr 1
      refine List.countP_congr ?_
      intro a _
      simp
    have hcov2 : ∀ a ∈ l.filter (fun a => !decide (f a = k)), f a ∈ kt := by
      intro a ha
      have hm := List.mem_of_mem_filter ha
      have hne : ¬ (f a = k) := by
        have := List.of_mem_filter ha
        simpa using this
      rcases List.mem_cons.mp (hcov a hm) with h | h
      · exact absurd h hne
      · exact h
    have heq : ∀ k' ∈ kt,
        (l.filter (fun a => decide (f a = k'))).length
          = ((l.filter (fun a => !decide (f a = k))).filter
              (fun a => decide (f a = k'))).length := by
      intro k' hk'
      rw [List.filter_filter]
      congr 1
      refine (List.filter_congr ?_)
      intro a _
      by_cases hfa : f a = k'
      · have hkk : k' ≠ k := by
          rintro rfl
          exact (List.nodup_cons.mp hnd).1 hk'
        simp [hfa, hkk]
      · simp [hfa]
    rw [List.map_cons, List.sum_cons]
    have hmain : (kt.map (fun k' => (l.filter (fun a => decide (f a = k'))).length)).sum
        = ((l.filter (fun a => !decide (f a = k)))).length := by
      rw [← ih (l.filter (fun a => !decide (f a = k))) (List.Nodup.of_cons hnd) hcov2]
      congr 1
      refine List.map_congr_left ?_
      intro k' hk'
      exact heq k' hk'
    rw [hmain]
    exact hsplit

theorem strStarts_double_underscore {s : String} :
    strStarts s "__" = true → strStarts s "_" = true := by
  intro h
  have h2 : "__".data <+: s.data := by
    simpa [strStarts, List.isPrefixOf_iff_prefix] using h
  have h1 : "_".data <+: s.data := by
    refine List.IsPrefix.trans ?_ h2
    exact ⟨['_'], rfl⟩
  simpa [strStarts, List.isPrefixOf_iff_prefix] using h1

theorem analyze_dead_frac_eq (c : List DeadCode.DCNode) (t : Nat) :
    (DeadCode.analyze_dead_code c t).dead_frac
      = if t ≠ 0 then ((DeadCode.analyze_dead_code c t).total_dead : ℚ) / (t : ℚ) else 0 := rfl

/-- C4: `classify_node` marks a zero-caller node `caution` exactly when
its name matches an enumerated entrypoint name, or a framework name
pattern, or its file path contains a framework segment, or its kind is
`class`; otherwise it is `safe` iff the name has a leading underscore
and complexity is at most 8, else `review`.  On Scenario A's three
nodes with `total_symbols = 5` the report has safe=1, caution=2,
review=0, total_dead=3 and dead ratio 0.6. -/
theorem dead_code_classification_c4 :
    (∀ node : DeadCode.DCNode, DeadCode.classify_node node = DeadCode.classify_spec node)
    ∧ (DeadCode.scnA_nodes.map DeadCode.classify_node) = ["safe", "caution", "caution"]
    ∧ (DeadCode.analyze_dead_code DeadCode.scnA_nodes 5).safe_count = 1
    ∧ (DeadCode.analyze_dead_code DeadCode.scnA_nodes 5).caution_count = 2
    ∧ (DeadCode.analyze_dead_code DeadCode.scnA_nodes 5).review_count = 0
    ∧ (DeadCode.analyze_dead_code DeadCode.scnA_nodes 5).total_dead = 3
    ∧ (DeadCode.analyze_dead_code DeadCode.scnA_nodes 5).dead_frac = 3 / 5 := by
  refine ⟨?_, by decide, by decide, by decide, by decide, by decide, ?_⟩
  · intro node
    unfold DeadCode.classify_node DeadCode.classify_spec
    by_cases h1 : lowerStr node.name ∈ DeadCode.ENTRYPOINT_NAMES
    · simp [h1]
    · by_cases h2 : (DeadCode.FRAMEWORK_PATTERNS.any
          fun p => strStarts node.name p || strEnds node.name p) = true
      · simp [h1, h2]
      · by_cases h3 : (DeadCode.FRAMEWORK_PATH_SEGMENTS.any
            fun seg => strContains (lowerStr (node.file_path.getD "")) seg) = true
        · simp [h1, h2, h3]
        · by_cases h4 : node.kind = "class"
          · simp [h1, h2, h3, h4]
          · by_cases h5 : strStarts node.name "_" = true
            · by_cases h6 : node.complexity.getD 0 ≤ 8
              · simp [h1, h2, h3, h4, h5, h6]
              · simp [h1, h2, h3, h4, h5, h6]
            · have h7 : strStarts node.name "__" = false := by
                by_contra hc
                exact absurd (strStarts_double_underscore
                  (by simpa using Bool.of_not_eq_false hc)) (by simp [h5])
              simp [h1, h2, h3, h4, h5, h7]
  · rw [analyze_dead_frac_eq]
    have ht : (DeadCode.analyze_dead_code DeadCode.scnA_nodes 5).total_dead = 3 := by decide
    rw [ht]
    norm_num

/-- C6: at the concrete pair of snapshots that the repository's own
test `test_module_rename_not_flagged_as_modified` describes (same
name, module and content portion, different module-hash portion),
`compute_diff_graph` classifies the node as `modified` because it
compares the full hash strings, while the specified content-portion
comparison finds the two content hashes equal. -/
theorem diff_modified_full_hash_c6 :
    Diff.modified_vids
        [{ name := "fn", module := "mod", hash := "hash_a:same" }]
        [{ name := "fn", module := "mod", hash := "hash_b:same" }] = ["fn::mod"]
    ∧ Diff.common_vid_status
        [{ name := "fn", module := "mod", hash := "hash_a:same" }]
        [{ name := "fn", module := "mod", hash := "hash_b:same" }] "fn::mod" = "modified"
    ∧ Diff.content_hash_spec "hash_a:same" = Diff.content_hash_spec "hash_b:same" := by
  decide

/-- C2: on the diamond graph (`a` calls `b` and `c`, both call `d`,
every SCC a singleton) the reverse-topological DP of
`_compute_reachability` assigns node `a` a `transitive_callees` of 4,
double-counting `d` along the two converging paths, whereas the
claimed inclusive-descendant count of `a`'s SCC minus `scc_size` is
|{a,b,c,d}| - 1 = 3. -/
theorem reachability_dp_c2 :
    Enrich.transitive_callees Enrich.diamond_nodes Enrich.diamond_edges "a" = some 4
    ∧ Enrich.inclusiveDescCount Enrich.diamond_nodes Enrich.diamond_edges "a" = 4
    ∧ Enrich.sccSizeOf Enrich.diamond_nodes Enrich.diamond_edges "a" = 1
    ∧ Enrich.spec_transitive_callees Enrich.diamond_nodes Enrich.diamond_edges "a" = 3
    ∧ Enrich.transitive_callees Enrich.diamond_nodes Enrich.diamond_edges "a"
        ≠ some (Enrich.spec_transitive_callees Enrich.diamond_nodes Enrich.diamond_edges "a") := by
  decide

/-- C10: `compute_diff` computes its numeric counters over the full
matched sets but truncates the returned `added` / `removed` lists to
50 entries and the module-edge lists to 30, so with more changed
nodes than the cap the lists are shorter than the reported counts. -/
theorem compute_diff_truncation_c10 (a b : List Diff.DNode)
    (mea meb : List Diff.ModEdge) :
    (Diff.compute_diff a b mea meb).added = (Diff.addedFull a b).take 50
    ∧ (Diff.compute_diff a b mea meb).nodes_added = (Diff.addedFull a b).length
    ∧ (Diff.compute_diff a b mea meb).removed = (Diff.removedFull a b).take 50
    ∧ (Diff.compute_diff a b mea meb).nodes_removed = (Diff.removedFull a b).length
    ∧ (Diff.compute_diff a b mea meb).module_edges_added
        = (Diff.modEdgesAddedFull mea meb).take 30
    ∧ (Diff.compute_diff a b mea meb).module_edges_removed
        = (Diff.modEdgesRemovedFull mea meb).take 30
    ∧ (50 < (Diff.addedFull a b).length →
        (Diff.compute_diff a b mea meb).added.length
          < (Diff.compute_diff a b mea meb).nodes_added)
    ∧ (50 < (Diff.removedFull a b).length →
        (Diff.compute_diff a b mea meb).removed.length
          < (Diff.compute_diff a b mea meb).nodes_removed) := by
  refine ⟨rfl, rfl, rfl, rfl, rfl, rfl, ?_, ?_⟩
  · intro h
    show ((Diff.addedFull a b).take 50).length < (Diff.addedFull a b).length
    rw [List.length_take]
    omega
  · intro h
    show ((Diff.removedFull a b).take 50).length < (Diff.removedFull a b).length
    rw [List.length_take]
    omega

/-- Witness for C10: with 51 added nodes the returned `added` list has
50 entries while `nodes_added` reports 51. -/
theorem compute_diff_truncation_c10_witness :
    50 < (Diff.addedFull [] Diff.manyNodes).length
    ∧ (Diff.compute_diff [] Diff.manyNodes [] []).added.length
        < (Diff.compute_diff [] Diff.manyNodes [] []).nodes_added := by
  have h : 50 < (Diff.addedFull [] Diff.manyNodes).length := by decide
  exact ⟨h, ((compute_diff_truncation_c10 [] Diff.manyNodes [] []).2.2.2.2.2.2.1) h⟩

theorem round3_one : round3 1 = 1 := by norm_num [round3]

theorem round6_zero : round6 0 = 0 := by norm_num [round6]

/-- Counterexample for C7: the empty snapshot has pairwise-distinct
keys, yet `compute_diff(s, s)` reports similarity 0.0 (the
denominator guard `max(|A ∪ B|, 1)` makes the ratio 0/1), not 1.0. -/
theorem compute_diff_empty_c7 :
    ((List.map Diff.dkey ([] : List Diff.DNode)).Nodup)
    ∧ (Diff.compute_diff [] [] [] []).nodes_added = 0
    ∧ (Diff.compute_diff [] [] [] []).nodes_removed = 0
    ∧ (Diff.compute_diff [] [] [] []).nodes_common = 0
    ∧ (Diff.compute_diff [] [] [] []).similarity = 0
    ∧ (Diff.compute_diff [] [] [] []).similarity ≠ 1 := by
  have hsim : (Diff.compute_diff [] [] [] []).similarity = 0 := by
    show round3 _ = 0
    norm_num [round3, Diff.commonKeys, Diff.keysOf, uniq, uniqAux]
  refine ⟨by simp, by decide, by decide, by decide, hsim, ?_⟩
  rw [hsim]
  norm_num

/-- C7 (amended): for every nonempty snapshot `s` whose nodes have
pairwise-distinct `(name, module)` keys, `compute_diff(s, s)` returns
similarity 1.0, zero added and removed nodes, and `nodes_common` equal
to the number of nodes; on the empty snapshot the similarity is 0.0
instead (see the counterexample). -/
theorem compute_diff_identity_c7 (s : List Diff.DNode) (me : List Diff.ModEdge)
    (hnd : (s.map Diff.dkey).Nodup) (hne : s ≠ []) :
    (Diff.compute_diff s s me me).similarity = 1
    ∧ (Diff.compute_diff s s me me).nodes_added = 0
    ∧ (Diff.compute_diff s s me me).nodes_removed = 0
    ∧ (Diff.compute_diff s s me me).nodes_common = s.length := by
  have hkeys : Diff.keysOf s = s.map Diff.dkey := uniq_eq_self hnd
  have hfilter_out : (Diff.keysOf s).filter (fun k => decide (k ∉ Diff.keysOf s)) = [] := by
    refine List.filter_eq_nil_iff.mpr ?_
    intro k hk
    simp [hk]
  have hfilter_in : (Diff.keysOf s).filter (fun k => decide (k ∈ Diff.keysOf s))
      = Diff.keysOf s := by
    refine List.filter_eq_self.mpr ?_
    intro k hk
    simp [hk]
  have hlen : (Diff.keysOf s).length = s.length := by
    rw [hkeys, List.length_map]
  have hadded : Diff.addedFull s s = [] := by
    unfold Diff.addedFull
    rw [hfilter_out]
    rfl
  have hremoved : Diff.removedFull s s = [] := by
    unfold Diff.removedFull
    rw [hfilter_out]
    rfl
  have hcommon : Diff.commonKeys s s = Diff.keysOf s := hfilter_in
  have hslen : 1 ≤ s.length := by
    cases s with
    | nil => exact absurd rfl hne
    | cons a t => simp
  have hsim : (Diff.compute_diff s s me me).similarity
      = round3 (((Diff.commonKeys s s).length : ℚ)
        / max (((Diff.keysOf s).length
            + ((Diff.keysOf s).filter (fun k => k ∉ Diff.keysOf s)).length : ℕ) : ℚ) 1) := rfl
  refine ⟨?_, ?_, ?_, ?_⟩
  · rw [hsim, hcommon, hfilter_out]
    simp only [List.length_nil, Nat.add_zero]
    rw [hlen]
    have hne0 : (s.length : ℚ) ≠ 0 := by
      exact_mod_cast Nat.pos_iff_ne_zero.mp hslen
    have hmax : max ((s.length : ℕ) : ℚ) 1 = ((s.length : ℕ) : ℚ) := by
      refine max_eq_left ?_
      exact_mod_cast hslen
    rw [hmax, div_self hne0]
    exact round3_one
  · show (Diff.addedFull s s).length = 0
    rw [hadded]; rfl
  · show (Diff.removedFull s s).length = 0
    rw [hremoved]; rfl
  · show (Diff.commonKeys s s).length = s.length
    rw [hcommon, hlen]

/-- Witness for C7: Scenario E, a five-node snapshot diffed against
itself. -/
theorem compute_diff_identity_c7_witness :
    (Diff.scnE_nodes.map Diff.dkey).Nodup
    ∧ (Diff.compute_diff Diff.scnE_nodes Diff.scnE_nodes [] []).similarity = 1
    ∧ (Diff.compute_diff Diff.scnE_nodes Diff.scnE_nodes [] []).nodes_added = 0
    ∧ (Diff.compute_diff Diff.scnE_nodes Diff.scnE_nodes [] []).nodes_removed = 0
    ∧ (Diff.compute_diff Diff.scnE_nodes Diff.scnE_nodes [] []).nodes_common = 5 := by
  have hnd : (Diff.scnE_nodes.map Diff.dkey).Nodup := by decide
  have h := compute_diff_identity_c7 Diff.scnE_nodes [] hnd (by decide)
  exact ⟨hnd, h.1, h.2.1, h.2.2.1, by rw [h.2.2.2]; rfl⟩

/-- Counterexample for C3: a step that raises inside the merge loop of
`enrich` is not isolated; the loop has no handler, so the failure
propagates and the run does not succeed with default values. -/
theorem enrich_step_failure_c3 :
    Enrich.merge_steps ["a"] [Except.error "PowerIterationFailedConvergence"]
      = Except.error "PowerIterationFailedConvergence" := by
  rfl

/-- C3 (amended): only the HITS call inside `_compute_centrality` is
guarded: on convergence failure every node receives
`hub_score = 0` and `authority_score = 0` while betweenness, pagerank
and clustering are still computed; and when every step of the merge
loop returns normally the run succeeds with the merged features.  A
failure raised by any step, however, propagates out of the loop (see
the counterexample). -/
theorem enrich_hits_isolation_c3 :
    (∀ (gnodes : List String) (bc pr clust : String → ℚ),
      Enrich.compute_centrality gnodes bc pr clust none
        = gnodes.map (fun h =>
            (h, { betweenness_centrality := round6 (bc h)
                  pagerank := round6 (pr h)
                  hub_score := 0
                  authority_score := 0
                  clustering_coeff := round4 (clust h) })))
    ∧ (∀ (hashes : List String)
        (datas : List (List (String × List (String × ℚ)))),
      Enrich.merge_steps hashes (datas.map Except.ok)
        = Except.ok (datas.foldl Enrich.mergeData
            (hashes.map (fun h => (h, ([] : List (String × ℚ))))))) := by
  constructor
  · intro gnodes bc pr clust
    unfold Enrich.compute_centrality
    refine List.map_congr_left ?_
    intro h _
    simp [round6_zero]
  · intro hashes datas
    unfold Enrich.merge_steps
    generalize (hashes.map (fun h => (h, ([] : List (String × ℚ))))) = init
    induction datas generalizing init with
    | nil => rfl
    | cons d rest ih =>
      simp only [List.map_cons, List.foldlM_cons, List.foldl_cons]
      exact ih (Enrich.mergeData init d)

theorem sum_map_natCast {α : Type} (l : List α) (f : α → ℕ) :
    (l.map (fun a => ((f a : ℕ) : ℚ))).sum = (((l.map f).sum : ℕ) : ℚ) := by
  induction l with
  | nil => simp
  | cons a t ih => simp [ih]

theorem sum_map_insertionSort {α : Type} (r : α → α → Prop) [DecidableRel r]
    (l : List α) (f : α → ℚ) :
    ((l.insertionSort r).map f).sum = (l.map f).sum :=
  ((List.perm_insertionSort r l).map f).sum_eq

theorem groupsBy_sum (ds : List Pivot.Dim) (l : List Pivot.SqlNode) :
    ((Pivot.groupsBy ds l).map (fun g => g.2.length)).sum = l.length := by
  unfold Pivot.groupsBy
  rw [List.map_map]
  exact sum_group_lengths (Pivot.groupKey ds) (uniq (l.map (Pivot.groupKey ds))) l
    nodup_uniq (fun a ha => mem_uniq.mpr (List.mem_map_of_mem _ ha))

theorem groupsBy_mem_key (ds : List Pivot.Dim) (l : List Pivot.SqlNode)
    {g : List (Option String) × List Pivot.SqlNode} (hg : g ∈ Pivot.groupsBy ds l) :
    (∃ n ∈ l, Pivot.groupKey ds n = g.1)
    ∧ g.2 = l.filter (fun n => decide (Pivot.groupKey ds n = g.1)) := by
  unfold Pivot.groupsBy at hg
  rcases List.mem_map.mp hg with ⟨k, hk, rfl⟩
  have hk2 : k ∈ l.map (Pivot.groupKey ds) := mem_uniq.mp hk
  rcases List.mem_map.mp hk2 with ⟨n, hn, rfl⟩
  exact ⟨⟨n, hn, rfl⟩, rfl⟩

theorem parent_children_sum (d0 d1 : Pivot.Dim) (l : List Pivot.SqlNode)
    (v0 : Option String) :
    (((Pivot.groupsBy [d0, d1] l).filter
        (fun lg => decide (lg.1.getD 0 none = v0))).map (fun lg => lg.2.length)).sum
      = (l.filter (fun n => decide (d0 n = v0))).length := by
  unfold Pivot.groupsBy
  set gk := Pivot.groupKey [d0, d1] with hgk
  set l0 := l.filter (fun n => decide (d0 n = v0)) with hl0
  have hhead : ∀ n, (gk n).getD 0 none = d0 n := by
    intro n
    rfl
  -- move the key filter inside the map of groupsBy
  rw [List.filter_map]
  rw [List.map_map]
  -- the kept keys are exactly the keys of the restricted row list l0
  have hkeys : (uniq (l.map gk)).filter
      ((fun lg : List (Option String) × List Pivot.SqlNode =>
        decide (lg.1.getD 0 none = v0)) ∘ fun k => (k, l.filter (fun n => decide (gk n = k))))
      = uniq (l0.map gk) := by
    have h1 : ((fun lg : List (Option String) × List Pivot.SqlNode =>
        decide (lg.1.getD 0 none = v0)) ∘ fun k => (k, l.filter (fun n => decide (gk n = k))))
        = fun k : List (Option String) => decide (k.getD 0 none = v0) := rfl
    rw [h1, filter_uniq]
    congr 1
    rw [List.filter_map]
    rfl
  rw [hkeys]
  -- for a key of l0, grouping in l and in l0 agree
  have hgroup : ∀ k ∈ uniq (l0.map gk),
      ((fun lg : List (Option String) × List Pivot.SqlNode => lg.2.length) ∘
        fun k => (k, l.filter (fun n => decide (gk n = k)))) k
        = (l0.filter (fun n => decide (gk n = k))).length := by
    intro k hk
    rcases List.mem_map.mp (mem_uniq.mp hk) with ⟨n0, hn0, rfl⟩
    have hv0 : d0 n0 = v0 := by
      have := List.of_mem_filter hn0
      simpa using this
    show (l.filter (fun n => decide (gk n = gk n0))).length
        = (l0.filter (fun n => decide (gk n = gk n0))).length
    congr 1
    rw [hl0, List.filter_filter]
    refine (List.filter_congr ?_)
    intro a _
    by_cases hfa : gk a = gk n0
    · have hd0 : d0 a = v0 := by
        have : (gk a).getD 0 none = (gk n0).getD 0 none := by rw [hfa]
        rw [hhead, hhead] at this
        rw [this, hv0]
      simp [hfa, hd0]
    · simp [hfa]
  rw [List.map_congr_left hgroup]
  exact sum_group_lengths gk (uniq (l0.map gk)) l0 nodup_uniq
    (fun a ha => mem_uniq.mpr (List.mem_map_of_mem _ ha))

theorem sum_map_flatMap {α β : Type} (l : List α) (g : α → List β) (f : β → ℚ) :
    ((l.flatMap g).map f).sum = (l.map (fun a => ((g a).map f).sum)).sum := by
  induction l with
  | nil => simp
  | cons a t ih => simp [List.flatMap_cons, ih]

theorem leafValues_sum (rs : List Pivot.RootRow)
    (hb : ∀ r ∈ rs, Pivot.symCountVal r.values
      = (r.children.map (fun c => Pivot.symCountVal c.values)).sum) :
    ((Pivot.leafValues rs).map Pivot.symCountVal).sum
      = (rs.map (fun r => Pivot.symCountVal r.values)).sum := by
  unfold Pivot.leafValues
  rw [sum_map_flatMap]
  refine congrArg _ (List.map_congr_left ?_)
  intro r hr
  by_cases hc : r.children.isEmpty
  · simp [hc]
  · simp only [hc, if_neg, Bool.false_eq_true, not_false_eq_true, if_false]
    rw [List.map_map]
    exact (hb r hr).symm

theorem leafValues_no_children (rs : List Pivot.RootRow)
    (h : ∀ r ∈ rs, r.children = []) :
    Pivot.leafValues rs = rs.map (·.values) := by
  unfold Pivot.leafValues
  induction rs with
  | nil => rfl
  | cons r t ih =>
    rw [List.flatMap_cons, h r (List.mem_cons_self _ _)]
    simp only [List.isEmpty_nil, if_pos]
    rw [List.map_cons, List.singleton_append]
    exact congrArg _ (ih (fun x hx => h x (List.mem_cons_of_mem _ hx)))

/-- C1: for every snapshot and every pivot request with at least one
resolved dimension whose `symbol_count` column is `COUNT(*)`, the sum
of `symbol_count` over the leaf rows of `fetch_pivot` equals the
number of internal (non-`ext:`) nodes matching the kind filter, and
with two or more dimensions every root row's `symbol_count` equals
the sum of its children's `symbol_count`. -/
theorem pivot_symbol_count_conservation_c1
    (nodes : List Pivot.SqlNode) (dims : List (String × Pivot.Dim))
    (measures : List (String × Pivot.Measure)) (kinds : List String)
    (hdims : dims ≠ [])
    (hsc : ∀ g : List Pivot.SqlNode,
      Pivot.symCountVal (Pivot.valsOf measures g) = (g.length : ℚ)) :
    ((Pivot.leafValues (Pivot.fetch_pivot_rows nodes dims measures kinds)).map
        Pivot.symCountVal).sum
      = ((Pivot.filteredNodes nodes kinds).length : ℚ)
    ∧ (2 ≤ dims.length → ∀ r ∈ Pivot.fetch_pivot_rows nodes dims measures kinds,
        Pivot.symCountVal r.values
          = (r.children.map (fun c => Pivot.symCountVal c.values)).sum) := by
  match dims, hdims with
  | [d0], _ =>
    have he : Pivot.fetch_pivot_rows nodes [d0] measures kinds
        = ((Pivot.groupsBy [d0.2] (Pivot.filteredNodes nodes kinds)).map
            (Pivot.mkRow1 d0 measures)).insertionSort
          (fun a b => Pivot.symCountVal b.values ≤ Pivot.symCountVal a.values) := rfl
    constructor
    · rw [he, leafValues_no_children, List.map_map, sum_map_insertionSort, List.map_map]
      · have hpt : ∀ g ∈ Pivot.groupsBy [d0.2] (Pivot.filteredNodes nodes kinds),
            ((Pivot.symCountVal ∘ fun x : Pivot.RootRow => x.values)
              ∘ Pivot.mkRow1 d0 measures) g = ((g.2.length : ℕ) : ℚ) := by
          intro g _
          exact hsc g.2
        rw [List.map_congr_left hpt, sum_map_natCast, groupsBy_sum]
      · intro r hr
        have hr2 := (List.perm_insertionSort _ _).mem_iff.mp hr
        rcases List.mem_map.mp hr2 with ⟨g, _, rfl⟩
        rfl
    · intro habs
      simp at habs
  | d0 :: d1 :: rest, _ =>
    have he : Pivot.fetch_pivot_rows nodes (d0 :: d1 :: rest) measures kinds
        = ((Pivot.groupsBy [d0.2] (Pivot.filteredNodes nodes kinds)).map
            (Pivot.mkRow2 d0 d1 measures
              (Pivot.groupsBy [d0.2, d1.2] (Pivot.filteredNodes nodes kinds)))).insertionSort
          (fun a b => Pivot.symCountVal b.values ≤ Pivot.symCountVal a.values) := rfl
    have hb : ∀ r ∈ Pivot.fetch_pivot_rows nodes (d0 :: d1 :: rest) measures kinds,
        Pivot.symCountVal r.values
          = (r.children.map (fun c => Pivot.symCountVal c.values)).sum := by
      intro r hr
      rw [he] at hr
      have hr2 := (List.perm_insertionSort _ _).mem_iff.mp hr
      rcases List.mem_map.mp hr2 with ⟨pg, hpg, rfl⟩
      rcases groupsBy_mem_key [d0.2] (Pivot.filteredNodes nodes kinds) hpg with
        ⟨⟨n0, hn0, hkey⟩, hgrp⟩
      show Pivot.symCountVal (Pivot.valsOf measures pg.2)
        = (((Pivot.childrenOf d0 d1 measures
            (Pivot.groupsBy [d0.2, d1.2] (Pivot.filteredNodes nodes kinds))
            (pg.1.getD 0 none)).insertionSort _).map
              (fun c => Pivot.symCountVal c.values)).sum
      rw [sum_map_insertionSort]
      unfold Pivot.childrenOf
      rw [List.map_map]
      have hmc : ∀ lg ∈ (Pivot.groupsBy [d0.2, d1.2]
          (Pivot.filteredNodes nodes kinds)).filter
            (fun lg => decide (lg.1.getD 0 none = pg.1.getD 0 none)),
          ((fun c : Pivot.PRow => Pivot.symCountVal c.values) ∘
            (fun lg => { key := [(d0.1, lg.1.getD 0 none), (d1.1, lg.1.getD 1 none)]
                         values := Pivot.valsOf measures lg.2 : Pivot.PRow })) lg
            = ((lg.2.length : ℕ) : ℚ) := by
        intro lg _
        exact hsc lg.2
      rw [List.map_congr_left hmc, sum_map_natCast, parent_children_sum]
      rw [hsc pg.2]
      have hlen : pg.2.length = ((Pivot.filteredNodes nodes kinds).filter
          (fun n => decide (d0.2 n = pg.1.getD 0 none))).length := by
        rw [hgrp]
        congr 1
        refine List.filter_congr ?_
        intro a _
        have hpk : pg.1 = [pg.1.getD 0 none] := by
          rw [← hkey]
          rfl
        rw [hpk]
        simp [Pivot.groupKey]
      rw [hlen]
    refine ⟨?_, fun _ => hb⟩
    rw [leafValues_sum _ hb, he, sum_map_insertionSort, List.map_map]
    have hpt : ∀ pg ∈ Pivot.groupsBy [d0.2] (Pivot.filteredNodes nodes kinds),
        ((fun r : Pivot.RootRow => Pivot.symCountVal r.values) ∘
          Pivot.mkRow2 d0 d1 measures
            (Pivot.groupsBy [d0.2, d1.2] (Pivot.filteredNodes nodes kinds))) pg
          = ((pg.2.length : ℕ) : ℚ) := by
      intro pg _
      exact hsc pg.2
    rw [List.map_congr_left hpt, sum_map_natCast, groupsBy_sum]

/-- Witness for C1: Scenario D, the eight-node snapshot grouped by
module and kind with the `symbol_count` measure. -/
theorem pivot_symbol_count_conservation_c1_witness :
    ((Pivot.leafValues (Pivot.fetch_pivot_rows Pivot.scnD_nodes
        [("module", fun n => n.module), ("kind", fun n => n.kind)]
        [("symbol_count", Pivot.aggCount)] [])).map Pivot.symCountVal).sum
      = ((Pivot.filteredNodes Pivot.scnD_nodes []).length : ℚ)
    ∧ (∀ r ∈ Pivot.fetch_pivot_rows Pivot.scnD_nodes
        [("module", fun n => n.module), ("kind", fun n => n.kind)]
        [("symbol_count", Pivot.aggCount)] [],
        Pivot.symCountVal r.values
          = (r.children.map (fun c => Pivot.symCountVal c.values)).sum)
    ∧ (Pivot.filteredNodes Pivot.scnD_nodes []).length = 8 := by
  have h := pivot_symbol_count_conservation_c1 Pivot.scnD_nodes
    [("module", fun n => n.module), ("kind", fun n => n.kind)]
    [("symbol_count", Pivot.aggCount)] [] (by simp) (fun g => rfl)
  exact ⟨h.1, h.2 (by simp), by decide⟩

/-- Counterexample for C8, at the one-edge snapshot `c8_nodes` /
`c8_edges` (module `m1` calls module `m2` with `call_count` 5): the
emitted induced-subgraph edge has weight 1 (`COUNT(*)` over edge
rows), not the call count 5 between the two groups; and the resolved
pivot dimension `dead` (which `_resolve_dims` accepts) has no
`_DIM_SRC` entry, so the engine emits no induced-subgraph edge at all
for it even though a qualifying cross-group call exists. -/
theorem fetch_graph_edges_c8_counterexample :
    Pivot.fetch_graph_edges Pivot.c8_nodes Pivot.c8_edges "module" []
      = [{ source := "m1", target := "m2", weight := 1 }]
    ∧ Pivot.spec_call_count_between Pivot.c8_nodes Pivot.c8_edges
        (fun n => n.module) [] "m1" "m2" = 5
    ∧ (Pivot.fetch_graph_edges Pivot.c8_nodes Pivot.c8_edges "module" []).map (·.weight)
        ≠ [Pivot.spec_call_count_between Pivot.c8_nodes Pivot.c8_edges
            (fun n => n.module) [] "m1" "m2"]
    ∧ (Pivot.availableDimEval "dead").isSome = true
    ∧ (Pivot.availableDimEval "dead").map
        (fun f => (Pivot.qualRows Pivot.c8_nodes Pivot.c8_edges f []).length) = some 1
    ∧ Pivot.fetch_graph_edges Pivot.c8_nodes Pivot.c8_edges "dead" [] = [] := by
  decide

theorem qualRows_spec {nodes : List Pivot.SqlNode} {edges : List Pivot.SqlEdge}
    {f : Pivot.Dim} {kinds : List String}
    {r : Pivot.SqlEdge × Pivot.SqlNode × Pivot.SqlNode}
    (h : r ∈ Pivot.qualRows nodes edges f kinds) :
    (f r.2.1).isSome = true ∧ (f r.2.2).isSome = true ∧ f r.2.1 ≠ f r.2.2 := by
  have hb := List.of_mem_filter h
  simp only [Bool.and_eq_true, decide_eq_true_eq] at hb
  exact ⟨hb.1.1.1.1.2, hb.1.1.1.2, hb.1.1.2⟩

theorem filterMap_ge_map (qual : List (Pivot.SqlEdge × Pivot.SqlNode × Pivot.SqlNode))
    (f : Pivot.Dim) :
    ∀ (ks : List (Option String × Option String)),
      (∀ k ∈ ks, ∃ s t : String, k = (some s, some t)) →
      (ks.filterMap (fun k =>
          match k with
          | (some s, some t) =>
            some { source := s, target := t
                   weight := ((qual.filter
                     (fun r => decide ((f r.2.1, f r.2.2) = k))).length : Int) : Pivot.GEdge }
          | _ => none))
        = ks.map (fun k =>
            { source := k.1.getD "", target := k.2.getD ""
              weight := ((qual.filter
                (fun r => decide ((f r.2.1, f r.2.2) = k))).length : Int) : Pivot.GEdge }) := by
  intro ks
  induction ks with
  | nil => intro _; rfl
  | cons k kt ih =>
    intro hshape
    rcases hshape k (List.mem_cons_self _ _) with ⟨s, t, rfl⟩
    rw [List.filterMap_cons, List.map_cons]
    simp only
    exact congrArg _ (ih (fun x hx => hshape x (List.mem_cons_of_mem _ hx)))

/-- C8 (amended): for every dimension with `_DIM_SRC` support (module,
risk, kind, symbol, community_dominant_mod), `fetch_graph_edges` emits
exactly one induced-subgraph edge per distinct `(src, tgt)` pair of
dimension values among the qualifying joined edge rows, excluding
self-edges and NULL values, and each emitted weight is the number of
distinct caller-callee edge rows between the two groups (`COUNT(*)`),
not the summed `call_count`; dimensions without `_DIM_SRC` support
produce no edges (see the counterexample). -/
theorem fetch_graph_edges_c8
    (dimension : String) (f : Pivot.Dim) (hf : Pivot.dimEval dimension = some f)
    (nodes : List Pivot.SqlNode) (edges : List Pivot.SqlEdge) (kinds : List String) :
    ((Pivot.fetch_graph_edges nodes edges dimension kinds).map
        (fun g => (g.source, g.target))).Nodup
    ∧ (∀ s t : String,
        (s, t) ∈ (Pivot.fetch_graph_edges nodes edges dimension kinds).map
            (fun g => (g.source, g.target))
          ↔ ∃ r ∈ Pivot.qualRows nodes edges f kinds,
              f r.2.1 = some s ∧ f r.2.2 = some t)
    ∧ (∀ g ∈ Pivot.fetch_graph_edges nodes edges dimension kinds,
        g.source ≠ g.target
        ∧ g.weight = (((Pivot.qualRows nodes edges f kinds).filter
            (fun r => decide (f r.2.1 = some g.source ∧ f r.2.2 = some g.target))).length
              : Int)) := by
  have he : Pivot.fetch_graph_edges nodes edges dimension kinds
      = ((uniq ((Pivot.qualRows nodes edges f kinds).map
            (fun t => (f t.2.1, f t.2.2)))).filterMap (fun k =>
          match k with
          | (some s, some t) =>
            some { source := s, target := t
                   weight := (((Pivot.qualRows nodes edges f kinds).filter
                     (fun r => decide ((f r.2.1, f r.2.2) = k))).length : Int) : Pivot.GEdge }
          | _ => none)).insertionSort (fun a b => b.weight ≤ a.weight) := by
    unfold Pivot.fetch_graph_edges
    rw [hf]
  have hshape : ∀ k ∈ uniq ((Pivot.qualRows nodes edges f kinds).map
      (fun t => (f t.2.1, f t.2.2))), ∃ s t : String, k = (some s, some t) := by
    intro k hk
    rcases List.mem_map.mp (mem_uniq.mp hk) with ⟨r, hr, rfl⟩
    rcases qualRows_spec hr with ⟨h1, h2, _⟩
    rcases Option.isSome_iff_exists.mp h1 with ⟨s, hs⟩
    rcases Option.isSome_iff_exists.mp h2 with ⟨t, ht⟩
    exact ⟨s, t, by rw [hs, ht]⟩
  rw [he, filterMap_ge_map _ _ _ hshape]
  constructor
  · -- distinct (source, target) pairs
    refine List.Nodup.perm ?_ ((List.perm_insertionSort _ _).map _).symm
    rw [List.map_map]
    refine List.Nodup.map_on ?_ nodup_uniq
    intro x hx y hy hxy
    rcases hshape x hx with ⟨sx, tx, rfl⟩
    rcases hshape y hy with ⟨sy, ty, rfl⟩
    simp only [Function.comp_apply, Option.getD_some, Prod.mk.injEq] at hxy
    simp [hxy.1, hxy.2]
  constructor
  · -- membership characterization
    intro s t
    rw [List.Perm.mem_iff (((List.perm_insertionSort _ _)).map _)]
    rw [List.map_map]
    constructor
    · intro hm
      rcases List.mem_map.mp hm with ⟨k, hk, hkeq⟩
      rcases hshape k hk with ⟨s0, t0, rfl⟩
      simp only [Function.comp_apply, Option.getD_some, Prod.mk.injEq] at hkeq
      rcases List.mem_map.mp (mem_uniq.mp hk) with ⟨r, hr, hkey⟩
      have hk1 : f r.2.1 = some s0 := congrArg Prod.fst hkey
      have hk2 : f r.2.2 = some t0 := congrArg Prod.snd hkey
      rw [hkeq.1] at hk1
      rw [hkeq.2] at hk2
      exact ⟨r, hr, hk1, hk2⟩
    · rintro ⟨r, hr, hs, ht⟩
      refine List.mem_map.mpr ⟨(f r.2.1, f r.2.2), mem_uniq.mpr
        (List.mem_map.mpr ⟨r, hr, rfl⟩), ?_⟩
      simp [hs, ht]
  · -- weights and self-edge exclusion
    intro g hg
    have hg2 := (List.perm_insertionSort _ _).mem_iff.mp hg
    rcases List.mem_map.mp hg2 with ⟨k, hk, rfl⟩
    rcases hshape k hk with ⟨s0, t0, rfl⟩
    rcases List.mem_map.mp (mem_uniq.mp hk) with ⟨r, hr, hkey⟩
    have hk1 : f r.2.1 = some s0 := congrArg Prod.fst hkey
    have hk2 : f r.2.2 = some t0 := congrArg Prod.snd hkey
    constructor
    · rcases qualRows_spec hr with ⟨_, _, hne⟩
      simp only [Option.getD_some]
      rintro hcon
      refine hne ?_
      rw [hk1, hk2, hcon]
    · simp only [Option.getD_some]
      congr 1
      congr 1
      refine List.filter_congr ?_
      intro a _
      simp [Prod.ext_iff]

/-- Witness for C8: the module dimension on the two-node snapshot. -/
theorem fetch_graph_edges_c8_witness :
    ((Pivot.fetch_graph_edges Pivot.c8_nodes Pivot.c8_edges "module" []).map
        (fun g => (g.source, g.target))).Nodup
    ∧ ("m1", "m2") ∈ (Pivot.fetch_graph_edges Pivot.c8_nodes Pivot.c8_edges "module" []).map
        (fun g => (g.source, g.target))
    ∧ ∀ g ∈ Pivot.fetch_graph_edges Pivot.c8_nodes Pivot.c8_edges "module" [],
        g.source ≠ g.target := by
  have h := fetch_graph_edges_c8 "module" (fun n => n.module) rfl
    Pivot.c8_nodes Pivot.c8_edges []
  exact ⟨h.1, (h.2.1 "m1" "m2").mpr (by decide), fun g hg => (h.2.2 g hg).1⟩

theorem Gr.mem_step {succ : String → List String} {s : List String} {v : String} :
    v ∈ Gr.step succ s ↔ v ∈ s ∨ ∃ p ∈ s, v ∈ succ p := by
  unfold Gr.step
  rw [mem_uniq, List.mem_append, List.mem_flatMap]

theorem Gr.subset_step {succ : String → List String} {s : List String} :
    s ⊆ Gr.step succ s := fun _ hv => Gr.mem_step.mpr (Or.inl hv)

theorem Gr.step_mono {succ : String → List String} {s t : List String}
    (h : s ⊆ t) : Gr.step succ s ⊆ Gr.step succ t := by
  intro v hv
  rcases Gr.mem_step.mp hv with h1 | ⟨p, hp, hs⟩
  · exact Gr.mem_step.mpr (Or.inl (h h1))
  · exact Gr.mem_step.mpr (Or.inr ⟨p, h hp, hs⟩)

theorem Gr.step_congr {succ : String → List String} {s t : List String}
    (h : ∀ x, x ∈ s ↔ x ∈ t) : ∀ x, x ∈ Gr.step succ s ↔ x ∈ Gr.step succ t := by
  intro x
  rw [Gr.mem_step, Gr.mem_step]
  constructor
  · rintro (h1 | ⟨p, hp, hs⟩)
    · exact Or.inl ((h x).mp h1)
    · exact Or.inr ⟨p, (h p).mp hp, hs⟩
  · rintro (h1 | ⟨p, hp, hs⟩)
    · exact Or.inl ((h x).mpr h1)
    · exact Or.inr ⟨p, (h p).mpr hp, hs⟩

theorem Gr.self_mem_reachN {succ : String → List String} {u : String} :
    ∀ {k : Nat}, u ∈ Gr.reachN succ k u := by
  intro k
  induction k with
  | zero => exact List.mem_singleton.mpr rfl
  | succ k ih => exact Gr.subset_step ih

theorem Gr.reachN_succ_subset {succ : String → List String} {u : String} {k : Nat} :
    Gr.reachN succ k u ⊆ Gr.reachN succ (k + 1) u := Gr.subset_step

theorem Gr.reachN_mono {succ : String → List String} {u : String} :
    ∀ {k m : Nat}, k ≤ m → Gr.reachN succ k u ⊆ Gr.reachN succ m u := by
  intro k m h
  induction m with
  | zero =>
    cases Nat.le_zero.mp h
    exact fun _ hv => hv
  | succ m ih =>
    rcases Nat.lt_or_ge k (m + 1) with h2 | h2
    · exact fun v hv => Gr.reachN_succ_subset (ih (Nat.lt_succ_iff.mp h2) hv)
    · have : k = m + 1 := Nat.le_antisymm h h2
      subst this
      exact fun _ hv => hv

theorem Gr.nodup_reachN {succ : String → List String} {u : String} :
    ∀ {k : Nat}, (Gr.reachN succ k u).Nodup := by
  intro k
  cases k with
  | zero => exact List.nodup_singleton u
  | succ k => exact nodup_uniq

theorem Gr.reachN_subset_univ {succ : String → List String} {univ : List String}
    (hsucc : ∀ p x, x ∈ succ p → x ∈ univ) {u : String} (hu : u ∈ univ) :
    ∀ {k : Nat}, Gr.reachN succ k u ⊆ univ := by
  intro k
  induction k with
  | zero =>
    intro v hv
    rw [List.mem_singleton.mp hv]
    exact hu
  | succ k ih =>
    intro v hv
    rcases Gr.mem_step.mp hv with h1 | ⟨p, _, hs⟩
    · exact ih h1
    · exact hsucc p v hs

theorem Gr.reachN_stable_propagate {succ : String → List String} {u : String} {k : Nat}
    (h : ∀ v, v ∈ Gr.reachN succ (k + 1) u ↔ v ∈ Gr.reachN succ k u) :
    ∀ (m : Nat) (v : String), v ∈ Gr.reachN succ (k + m) u ↔ v ∈ Gr.reachN succ k u := by
  intro m
  induction m with
  | zero => intro v; rfl
  | succ m ih =>
    intro v
    have hstep : ∀ w, w ∈ Gr.step succ (Gr.reachN succ (k + m) u)
        ↔ w ∈ Gr.step succ (Gr.reachN succ k u) :=
      Gr.step_congr ih
    calc v ∈ Gr.reachN succ (k + (m + 1)) u
        ↔ v ∈ Gr.step succ (Gr.reachN succ (k + m) u) := Iff.rfl
      _ ↔ v ∈ Gr.step succ (Gr.reachN succ k u) := hstep v
      _ ↔ v ∈ Gr.reachN succ k u := h v

theorem Gr.reachN_growth {succ : String → List String} {u : String} :
    ∀ (k : Nat), (∀ j < k, ¬ ∀ v, v ∈ Gr.reachN succ (j + 1) u ↔ v ∈ Gr.reachN succ j u) →
      k + 1 ≤ (Gr.reachN succ k u).length := by
  intro k
  induction k with
  | zero => intro _; simp [Gr.reachN]
  | succ k ih =>
    intro h
    have hk : k + 1 ≤ (Gr.reachN succ k u).length :=
      ih (fun j hj => h j (Nat.lt_succ_of_lt hj))
    have hne : ¬ ∀ v, v ∈ Gr.reachN succ (k + 1) u ↔ v ∈ Gr.reachN succ k u :=
      h k (Nat.lt_succ_self k)
    have hsub : Gr.reachN succ k u ⊆ Gr.reachN succ (k + 1) u := Gr.reachN_succ_subset
    have hle : (Gr.reachN succ k u).length ≤ (Gr.reachN succ (k + 1) u).length :=
      (Gr.nodup_reachN.subperm hsub).length_le
    rcases Nat.lt_or_ge (Gr.reachN succ k u).length (Gr.reachN succ (k + 1) u).length with
      hlt | hge
    · omega
    · exfalso
      have hperm : (Gr.reachN succ k u).Perm (Gr.reachN succ (k + 1) u) :=
        (Gr.nodup_reachN.subperm hsub).perm_of_length_le hge
    
      exact hne (fun v => ⟨fun hv => hperm.mem_iff.mpr hv, fun hv => hperm.mem_iff.mp hv⟩)

theorem Gr.reachN_saturated {succ : String → List String} {univ : List String}
    (hsucc : ∀ p x, x ∈ succ p → x ∈ univ) {u : String} (hu : u ∈ univ) :
    ∀ (m : Nat) (v : String),
      v ∈ Gr.reachN succ (univ.length + m) u ↔ v ∈ Gr.reachN succ univ.length u := by
  have hex : ∃ k, k ≤ univ.length
      ∧ ∀ v, v ∈ Gr.reachN succ (k + 1) u ↔ v ∈ Gr.reachN succ k u := by
    by_contra hc
    have hgrow : ∀ j < univ.length + 1,
        ¬ ∀ v, v ∈ Gr.reachN succ (j + 1) u ↔ v ∈ Gr.reachN succ j u := by
      intro j hj hP
      exact hc ⟨j, Nat.lt_succ_iff.mp hj, hP⟩
    have h1 := @Gr.reachN_growth succ u (univ.length + 1) hgrow
    have h2 : (Gr.reachN succ (univ.length + 1) u).length ≤ univ.length :=
      (Gr.nodup_reachN.subperm (Gr.reachN_subset_univ hsucc hu)).length_le
    omega
  rcases hex with ⟨k, hkF, hPk⟩
  have hprop := Gr.reachN_stable_propagate hPk
  intro m v
  have e1 : univ.length + m = k + (univ.length - k + m) := by omega
  have e2 : univ.length = k + (univ.length - k) := by omega
  rw [e1, hprop (univ.length - k + m) v, e2, hprop (univ.length - k) v]

theorem Gr.reachN_append {succ : String → List String} {u v : String} {j : Nat}
    (hv : v ∈ Gr.reachN succ j u) :
    ∀ {k : Nat}, Gr.reachN succ k v ⊆ Gr.reachN succ (j + k) u := by
  intro k
  induction k with
  | zero =>
    intro w hw
    rw [List.mem_singleton.mp hw]
    exact hv
  | succ k ih =>
    intro w hw
    exact Gr.step_mono ih hw

theorem Gr.reaches_trans {succ : String → List String} {univ : List String}
    (hsucc : ∀ p x, x ∈ succ p → x ∈ univ) {u v w : String} (hu : u ∈ univ)
    (h1 : Gr.reaches succ univ u v) (h2 : Gr.reaches succ univ v w) :
    Gr.reaches succ univ u w := by
  unfold Gr.reaches at h1 h2 ⊢
  have h3 : w ∈ Gr.reachN succ (univ.length + univ.length) u :=
    Gr.reachN_append h1 h2
  exact (Gr.reachN_saturated hsucc hu univ.length w).mp h3

theorem Gr.reaches_step {succ : String → List String} {univ : List String}
    {p v : String} (hp : p ∈ univ) (hs : v ∈ succ p) :
    Gr.reaches succ univ p v := by
  unfold Gr.reaches
  have h1 : v ∈ Gr.reachN succ 1 p :=
    Gr.mem_step.mpr (Or.inr ⟨p, List.mem_singleton.mpr rfl, hs⟩)
  have hF : 1 ≤ univ.length := by
    cases univ with
    | nil => exact absurd hp (List.not_mem_nil _)
    | cons a t => simp
  exact Gr.reachN_mono hF h1

theorem Gr.reaches_self {succ : String → List String} {univ : List String} {u : String} :
    Gr.reaches succ univ u u := Gr.self_mem_reachN

theorem Gr.reaches_last_step {succ : String → List String} {u v : String} :
    ∀ {k : Nat}, v ∈ Gr.reachN succ k u →
      v = u ∨ ∃ p, p ∈ Gr.reachN succ k u ∧ v ∈ succ p := by
  intro k
  induction k with
  | zero => intro hv; exact Or.inl (List.mem_singleton.mp hv)
  | succ k ih =>
    intro hv
    rcases Gr.mem_step.mp hv with h1 | ⟨p, hp, hs⟩
    · rcases ih h1 with h2 | ⟨p, hp, hs⟩
      · exact Or.inl h2
      · exact Or.inr ⟨p, Gr.reachN_succ_subset hp, hs⟩
    · exact Or.inr ⟨p, Gr.reachN_succ_subset hp, hs⟩

theorem Gr.mem_sccOf {succ : String → List String} {univ : List String} {u v : String} :
    v ∈ Gr.sccOf succ univ u ↔ v ∈ univ ∧ Gr.sameSCC succ univ u v := by
  unfold Gr.sccOf
  rw [List.mem_filter]
  simp

theorem Gr.self_mem_sccOf {succ : String → List String} {univ : List String} {u : String}
    (hu : u ∈ univ) : u ∈ Gr.sccOf succ univ u :=
  Gr.mem_sccOf.mpr ⟨hu, Gr.reaches_self, Gr.reaches_self⟩

theorem Gr.mem_sccClasses {succ : String → List String} {univ : List String}
    {c : List String} :
    c ∈ Gr.sccClasses succ univ ↔ ∃ u ∈ univ, c = Gr.sccOf succ univ u := by
  unfold Gr.sccClasses
  rw [mem_uniq, List.mem_map]
  constructor
  · rintro ⟨u, hu, rfl⟩
    exact ⟨u, hu, rfl⟩
  · rintro ⟨u, hu, rfl⟩
    exact ⟨u, hu, rfl⟩

theorem exists_second_of_nodup {l : List String} (hnd : l.Nodup) (hlen : 1 < l.length)
    {a : String} (ha : a ∈ l) : ∃ b ∈ l, b ≠ a := by
  rcases l with _ | ⟨x, _ | ⟨y, t⟩⟩
  · exact absurd ha (List.not_mem_nil _)
  · simp at hlen
  · by_cases hxa : x = a
    · refine ⟨y, List.mem_cons_of_mem _ (List.mem_cons_self _ _), ?_⟩
      rintro rfl
      rw [hxa] at hnd
      exact (List.nodup_cons.mp hnd).1 (List.mem_cons_self _ _)
    · exact ⟨x, List.mem_cons_self _ _, hxa⟩

theorem Gr.scc_intra_edge {succ : String → List String} {univ : List String}
    (hsucc : ∀ p x, x ∈ succ p → x ∈ univ) (hnd : univ.Nodup) {u : String}
    (hu : u ∈ univ) (hlen : 1 < (Gr.sccOf succ univ u).length) :
    ∃ p v, p ∈ Gr.sccOf succ univ u ∧ v ∈ Gr.sccOf succ univ u ∧ v ∈ succ p := by
  have hnd2 : (Gr.sccOf succ univ u).Nodup := hnd.filter _
  rcases exists_second_of_nodup hnd2 hlen (Gr.self_mem_sccOf hu) with ⟨v, hv, hvu⟩
  rcases Gr.mem_sccOf.mp hv with ⟨hvuniv, huv, hvu2⟩
  rcases Gr.reaches_last_step huv with h1 | ⟨p, hp, hs⟩
  · exact absurd h1 hvu
  · have hpreach : Gr.reaches succ univ u p := hp
    have hppu : p ∈ univ := Gr.reachN_subset_univ hsucc hu hp
    have hpv : Gr.reaches succ univ p v := Gr.reaches_step hppu hs
    have hpu : Gr.reaches succ univ p u := Gr.reaches_trans hsucc hppu hpv hvu2
    refine ⟨p, v, Gr.mem_sccOf.mpr ⟨hppu, hpreach, hpu⟩, hv, hs⟩

theorem Cycles.gSucc_closed (nodes : List Cycles.CNode) (edges : List Cycles.CEdge) :
    ∀ p x, x ∈ Cycles.gSucc edges p → x ∈ Cycles.gVertices nodes edges := by
  intro p x hx
  unfold Cycles.gSucc at hx
  rcases List.mem_map.mp (mem_uniq.mp hx) with ⟨e, he, rfl⟩
  have he2 := List.mem_of_mem_filter he
  unfold Cycles.gVertices
  refine mem_uniq.mpr (List.mem_append.mpr (Or.inr ?_))
  exact List.mem_flatMap.mpr ⟨e, he2, by simp⟩

theorem Cycles.minByWeight_cons (e0 e : Cycles.CEdge) (t : List Cycles.CEdge) :
    Cycles.minByWeight e0 (e :: t)
      = Cycles.minByWeight (if Cycles.weight e < Cycles.weight e0 then e else e0) t := by
  unfold Cycles.minByWeight
  rw [List.foldl_cons]

theorem Cycles.minByWeight_mem (e0 : Cycles.CEdge) (rest : List Cycles.CEdge) :
    Cycles.minByWeight e0 rest ∈ e0 :: rest := by
  induction rest generalizing e0 with
  | nil => exact List.mem_singleton.mpr rfl
  | cons e t ih =>
    rw [Cycles.minByWeight_cons]
    by_cases h : Cycles.weight e < Cycles.weight e0
    · rw [if_pos h]
      exact List.mem_cons_of_mem _ (ih e)
    · rw [if_neg h]
      rcases List.mem_cons.mp (ih e0) with h2 | h2
      · rw [h2]
        exact List.mem_cons_self _ _
      · exact List.mem_cons_of_mem _ (List.mem_cons_of_mem _ h2)

theorem Cycles.minByWeight_le (e0 : Cycles.CEdge) (rest : List Cycles.CEdge) :
    ∀ e ∈ e0 :: rest, Cycles.weight (Cycles.minByWeight e0 rest) ≤ Cycles.weight e := by
  induction rest generalizing e0 with
  | nil =>
    intro e he
    rw [List.mem_singleton.mp he]
    exact le_refl _
  | cons e2 t ih =>
    intro e he
    rw [Cycles.minByWeight_cons]
    by_cases h : Cycles.weight e2 < Cycles.weight e0
    · rw [if_pos h]
      have hle := ih e2
      rcases List.mem_cons.mp he with heq | he2
      · rw [heq]
        exact le_of_lt (lt_of_le_of_lt (hle e2 (List.mem_cons_self _ _)) h)
      · rcases List.mem_cons.mp he2 with heq | he3
        · rw [heq]
          exact hle e2 (List.mem_cons_self _ _)
        · exact hle e (List.mem_cons_of_mem _ he3)
    · rw [if_neg h]
      have hle := ih e0
      rcases List.mem_cons.mp he with heq | he2
      · rw [heq]
        exact hle e0 (List.mem_cons_self _ _)
      · rcases List.mem_cons.mp he2 with heq | he3
        · rw [heq]
          exact le_trans (hle e0 (List.mem_cons_self _ _)) (not_lt.mp h)
        · exact hle e (List.mem_cons_of_mem _ he3)

theorem Cycles.dedupEdges_cover {edges : List Cycles.CEdge} {p v : String}
    (h : ∃ e ∈ edges, e.caller_hash = p ∧ e.callee_hash = v) :
    ∃ e ∈ Cycles.dedupEdges edges, e.caller_hash = p ∧ e.callee_hash = v := by
  rcases h with ⟨e, he, h1, h2⟩
  have hk : (p, v) ∈ edges.map (fun e => (e.caller_hash, e.callee_hash)) :=
    List.mem_map.mpr ⟨e, he, by rw [h1, h2]⟩
  have hk2 : (p, v) ∈ uniq (edges.map (fun e => (e.caller_hash, e.callee_hash))) :=
    mem_uniq.mpr hk
  have hfind : (edges.reverse.find?
      (fun e => decide ((e.caller_hash, e.callee_hash) = (p, v)))).isSome := by
    rw [List.find?_isSome]
    exact ⟨e, List.mem_reverse.mpr he, by simp [h1, h2]⟩
  rcases Option.isSome_iff_exists.mp hfind with ⟨e2, he2⟩
  have hp2 := List.find?_some he2
  simp only [decide_eq_true_eq, Prod.mk.injEq] at hp2
  refine ⟨e2, ?_, hp2.1, hp2.2⟩
  unfold Cycles.dedupEdges
  exact List.mem_filterMap.mpr ⟨(p, v), hk2, he2⟩

theorem Cycles.mem_intraEdges {edges : List Cycles.CEdge} {c : List String}
    {e : Cycles.CEdge} :
    e ∈ Cycles.intraEdges edges c
      ↔ e ∈ Cycles.dedupEdges edges ∧ e.caller_hash ∈ c ∧ e.callee_hash ∈ c := by
  unfold Cycles.intraEdges
  rw [List.mem_filter]
  simp

theorem Cycles.intraEdges_nonempty (nodes : List Cycles.CNode) (edges : List Cycles.CEdge)
    {u : String} (hu : u ∈ Cycles.gVertices nodes edges)
    (hlen : 1 < (Gr.sccOf (Cycles.gSucc edges) (Cycles.gVertices nodes edges) u).length) :
    Cycles.intraEdges edges
      (Gr.sccOf (Cycles.gSucc edges) (Cycles.gVertices nodes edges) u) ≠ [] := by
  rcases Gr.scc_intra_edge (Cycles.gSucc_closed nodes edges) nodup_uniq hu hlen with
    ⟨p, v, hp, hv, hs⟩
  have hedge : ∃ e ∈ edges, e.caller_hash = p ∧ e.callee_hash = v := by
    unfold Cycles.gSucc at hs
    rcases List.mem_map.mp (mem_uniq.mp hs) with ⟨e, he, rfl⟩
    have hc := List.of_mem_filter he
    simp only [decide_eq_true_eq] at hc
    exact ⟨e, List.mem_of_mem_filter he, hc, rfl⟩
  rcases Cycles.dedupEdges_cover hedge with ⟨e2, he2, h1, h2⟩
  intro hnil
  have : e2 ∈ Cycles.intraEdges edges
      (Gr.sccOf (Cycles.gSucc edges) (Cycles.gVertices nodes edges) u) :=
    Cycles.mem_intraEdges.mpr ⟨he2, by rw [h1]; exact hp, by rw [h2]; exact hv⟩
  rw [hnil] at this
  exact List.not_mem_nil _ this

theorem Cycles.annotate_break (nodes : List Cycles.CNode) (edges : List Cycles.CEdge)
    (c : List String) (hne : Cycles.intraEdges edges c ≠ []) :
    ∃ bs e, (Cycles.annotateSCC nodes edges c).break_suggestion = some bs
      ∧ e ∈ Cycles.intraEdges edges c
      ∧ bs.caller_hash = e.caller_hash ∧ bs.callee_hash = e.callee_hash
      ∧ bs.call_count = Cycles.weight e
      ∧ ∀ e2 ∈ Cycles.intraEdges edges c, Cycles.weight e ≤ Cycles.weight e2 := by
  cases hi : Cycles.intraEdges edges c with
  | nil => exact absurd hi hne
  | cons e0 rest =>
    have hbs : (Cycles.annotateSCC nodes edges c).break_suggestion
        = some { caller_hash := (Cycles.minByWeight e0 rest).caller_hash
                 callee_hash := (Cycles.minByWeight e0 rest).callee_hash
                 caller_name := ((Cycles.nodeMap nodes
                   (Cycles.minByWeight e0 rest).caller_hash).map (fun n => n.name)).getD
                     (Cycles.minByWeight e0 rest).caller_hash
                 callee_name := ((Cycles.nodeMap nodes
                   (Cycles.minByWeight e0 rest).callee_hash).map (fun n => n.name)).getD
                     (Cycles.minByWeight e0 rest).callee_hash
                 caller_module := ((Cycles.nodeMap nodes
                   (Cycles.minByWeight e0 rest).caller_hash).bind (fun n => n.module)).getD ""
                 callee_module := ((Cycles.nodeMap nodes
                   (Cycles.minByWeight e0 rest).callee_hash).bind (fun n => n.module)).getD ""
                 call_count := Cycles.weight (Cycles.minByWeight e0 rest) } := by
      unfold Cycles.annotateSCC
      rw [hi]
    refine ⟨_, Cycles.minByWeight e0 rest, hbs, ?_, rfl, rfl, rfl, ?_⟩
    · exact Cycles.minByWeight_mem e0 rest
    · intro e2 he2
      exact Cycles.minByWeight_le e0 rest e2 he2

/-- C5: `find_cycles` returns exactly the SCC classes of size greater
than one, sorted descending by size and truncated to the top
`max_results`; every annotated result has a `break_suggestion` that is
an intra-SCC edge of minimum `call_count`; and on Scenario B (the
three-node cycle A calls B 100 times, B calls C 5 times, C calls A 50
times) the single size-3 cycle's suggestion is the B-to-C edge with
call count 5. -/
theorem find_cycles_c5 :
    (∀ (nodes : List Cycles.CNode) (edges : List Cycles.CEdge) (N : Nat),
      Cycles.find_cycles nodes edges N
        = ((Cycles.bigSCCsSorted nodes edges).take N).map (Cycles.annotateSCC nodes edges)
      ∧ (Cycles.bigSCCsSorted nodes edges).Perm
          ((Gr.sccClasses (Cycles.gSucc edges) (Cycles.gVertices nodes edges)).filter
            (fun c => decide (1 < c.length)))
      ∧ (Cycles.bigSCCsSorted nodes edges).Sorted (fun a b => b.length ≤ a.length)
      ∧ (Cycles.find_cycles nodes edges N).length
          = min N (((Gr.sccClasses (Cycles.gSucc edges)
              (Cycles.gVertices nodes edges)).filter
                (fun c => decide (1 < c.length))).length)
      ∧ ∀ r ∈ Cycles.find_cycles nodes edges N, 1 < r.size)
    ∧ (∀ (nodes : List Cycles.CNode) (edges : List Cycles.CEdge) (c : List String),
        c ∈ Gr.sccClasses (Cycles.gSucc edges) (Cycles.gVertices nodes edges) →
        1 < c.length →
        ∃ bs e, (Cycles.annotateSCC nodes edges c).break_suggestion = some bs
          ∧ e ∈ Cycles.intraEdges edges c
          ∧ bs.caller_hash = e.caller_hash ∧ bs.callee_hash = e.callee_hash
          ∧ e.caller_hash ∈ c ∧ e.callee_hash ∈ c
          ∧ bs.call_count = Cycles.weight e
          ∧ ∀ e2 ∈ Cycles.intraEdges edges c, Cycles.weight e ≤ Cycles.weight e2)
    ∧ ((Cycles.find_cycles Cycles.scnB_nodes Cycles.scnB_edges 20).map
        (fun r => r.size) = [3]
      ∧ ((Cycles.find_cycles Cycles.scnB_nodes Cycles.scnB_edges 20).head?.bind
          (fun r => r.break_suggestion)).map
            (fun b => (b.caller_hash, b.callee_hash, b.call_count))
        = some ("B", "C", 5)) := by
  have hsortfacts : ∀ (nodes : List Cycles.CNode) (edges : List Cycles.CEdge),
      (Cycles.bigSCCsSorted nodes edges).Perm
          ((Gr.sccClasses (Cycles.gSucc edges) (Cycles.gVertices nodes edges)).filter
            (fun c => decide (1 < c.length)))
      ∧ (Cycles.bigSCCsSorted nodes edges).Sorted (fun a b => b.length ≤ a.length) := by
    intro nodes edges
    constructor
    · exact List.perm_insertionSort _ _
    · haveI ht : IsTotal (List String) (fun a b => b.length ≤ a.length) :=
        ⟨fun a b => (le_total b.length a.length).imp id id⟩
      haveI htr : IsTrans (List String) (fun a b => b.length ≤ a.length) :=
        ⟨fun _ _ _ hab hbc => le_trans hbc hab⟩
      exact List.sorted_insertionSort _ _
  refine ⟨?_, ?_, by decide, by decide⟩
  · intro nodes edges N
    refine ⟨rfl, (hsortfacts nodes edges).1, (hsortfacts nodes edges).2, ?_, ?_⟩
    · show (((Cycles.bigSCCsSorted nodes edges).take N).map
        (Cycles.annotateSCC nodes edges)).length = _
      rw [List.length_map, List.length_take, (hsortfacts nodes edges).1.length_eq]
    · intro r hr
      rcases List.mem_map.mp hr with ⟨c, hc, rfl⟩
      have hc2 : c ∈ Cycles.bigSCCsSorted nodes edges := List.mem_of_mem_take hc
      have hc3 := (hsortfacts nodes edges).1.mem_iff.mp hc2
      have hlen := List.of_mem_filter hc3
      simp only [decide_eq_true_eq] at hlen
      exact hlen
  · intro nodes edges c hcm hlen
    rcases Gr.mem_sccClasses.mp hcm with ⟨u, hu, rfl⟩
    have hne := Cycles.intraEdges_nonempty nodes edges hu hlen
    rcases Cycles.annotate_break nodes edges _ hne with ⟨bs, e, h1, h2, h3, h4, h5, h6⟩
    have hmem := Cycles.mem_intraEdges.mp h2
    exact ⟨bs, e, h1, h2, h3, h4, hmem.2.1, hmem.2.2, h5, h6⟩

/-- Witness for C5: the Scenario B class of vertex A has a minimum
intra-SCC break suggestion. -/
theorem find_cycles_c5_witness :
    ∃ bs e, (Cycles.annotateSCC Cycles.scnB_nodes Cycles.scnB_edges
        (Gr.sccOf (Cycles.gSucc Cycles.scnB_edges)
          (Cycles.gVertices Cycles.scnB_nodes Cycles.scnB_edges) "A")).break_suggestion
            = some bs
      ∧ e ∈ Cycles.intraEdges Cycles.scnB_edges
          (Gr.sccOf (Cycles.gSucc Cycles.scnB_edges)
            (Cycles.gVertices Cycles.scnB_nodes Cycles.scnB_edges) "A")
      ∧ bs.caller_hash = e.caller_hash ∧ bs.callee_hash = e.callee_hash
      ∧ e.caller_hash ∈ Gr.sccOf (Cycles.gSucc Cycles.scnB_edges)
          (Cycles.gVertices Cycles.scnB_nodes Cycles.scnB_edges) "A"
      ∧ e.callee_hash ∈ Gr.sccOf (Cycles.gSucc Cycles.scnB_edges)
          (Cycles.gVertices Cycles.scnB_nodes Cycles.scnB_edges) "A"
      ∧ bs.call_count = Cycles.weight e
      ∧ ∀ e2 ∈ Cycles.intraEdges Cycles.scnB_edges
          (Gr.sccOf (Cycles.gSucc Cycles.scnB_edges)
            (Cycles.gVertices Cycles.scnB_nodes Cycles.scnB_edges) "A"),
          Cycles.weight e ≤ Cycles.weight e2 :=
  find_cycles_c5.2.1 Cycles.scnB_nodes Cycles.scnB_edges
    (Gr.sccOf (Cycles.gSucc Cycles.scnB_edges)
      (Cycles.gVertices Cycles.scnB_nodes Cycles.scnB_edges) "A")
    (by decide) (by decide)

theorem pairwise_of_total_true {α : Type} {r : α → α → Prop} (h : ∀ a b, r a b) :
    ∀ (l : List α), l.Pairwise r := by
  intro l
  induction l with
  | nil => exact List.Pairwise.nil
  | cons a t ih => exact List.Pairwise.cons (fun b _ => h a b) ih

theorem nodup_keys_unique {l : List (String × Nat)} (hnd : (l.map Prod.fst).Nodup)
    {a : String} {b c : Nat} (hb : (a, b) ∈ l) (hc : (a, c) ∈ l) : b = c := by
  induction l with
  | nil => exact absurd hb (List.not_mem_nil _)
  | cons p t ih =>
    rw [List.map_cons] at hnd
    have hnd1 := (List.nodup_cons.mp hnd).1
    have hnd2 := (List.nodup_cons.mp hnd).2
    rcases List.mem_cons.mp hb with hb1 | hb1 <;> rcases List.mem_cons.mp hc with hc1 | hc1
    · exact (Prod.ext_iff.mp (hb1.trans hc1.symm)).2
    · exfalso
      have hpa : p.1 = a := by rw [← hb1]
      rw [hpa] at hnd1
      exact hnd1 (List.mem_map.mpr ⟨(a, c), hc1, rfl⟩)
    · exfalso
      have hpa : p.1 = a := by rw [← hc1]
      rw [hpa] at hnd1
      exact hnd1 (List.mem_map.mpr ⟨(a, b), hb1, rfl⟩)
    · exact ih hnd2 hb1 hc1

theorem Blast.adjGet_subset {radj : Blast.RevAdj} {target : String} :
    ∀ (p : String), ∀ x ∈ Blast.adjGet radj p, x ∈ Blast.adjUniverse target radj := by
  intro p x hx
  unfold Blast.adjGet at hx
  cases hfind : radj.find? (fun q => q.1 == p) with
  | none =>
    rw [hfind] at hx
    exact absurd hx (List.not_mem_nil _)
  | some q =>
    rw [hfind] at hx
    have hx2 : x ∈ q.2 := hx
    have hq : q ∈ radj := List.mem_of_find?_eq_some hfind
    unfold Blast.adjUniverse
    exact List.mem_cons_of_mem _ (List.mem_flatMap.mpr ⟨q, hq, hx2⟩)

theorem sum_filter_le (l : List String) (p : String → Bool) (w : String → Nat) :
    ((l.filter p).map w).sum ≤ (l.map w).sum := by
  induction l with
  | nil => exact le_refl _
  | cons a t ih =>
    rw [List.filter_cons, List.map_cons, List.sum_cons]
    by_cases hp : p a
    · rw [if_pos hp, List.map_cons, List.sum_cons]
      exact Nat.add_le_add_left ih _
    · rw [if_neg hp]
      exact le_trans ih (Nat.le_add_left _ _)

theorem sum_erase_filter {c : String} (w : String → Nat) :
    ∀ (l : List String), c ∈ l →
      ((l.filter (fun h => !(c == h))).map w).sum + w c ≤ (l.map w).sum := by
  intro l
  induction l with
  | nil => intro h; exact absurd h (List.not_mem_nil _)
  | cons a t ih =>
    intro hc
    by_cases hac : c = a
    · subst hac
      simp only [List.filter_cons, beq_self_eq_true, Bool.not_true, Bool.false_eq_true,
        if_false]
      rw [List.map_cons, List.sum_cons, Nat.add_comm (w c) _]
      exact Nat.add_le_add_right (sum_filter_le t _ w) (w c)
    · have hba : (c == a) = false := beq_eq_false_iff_ne.mpr hac
      simp only [List.filter_cons, hba, Bool.not_false, if_true]
      rw [List.map_cons, List.map_cons, List.sum_cons, List.sum_cons, Nat.add_assoc]
      refine Nat.add_le_add_left ?_ (w a)
      have hct : c ∈ t := by
        rcases List.mem_cons.mp hc with h1 | h1
        · exact absurd h1 hac
        · exact h1
      exact ih hct

theorem Blast.pending_visit_le {radj : Blast.RevAdj} {univ : List String}
    {visited : List (String × Nat)} {c : String} {d : Nat} (hc : c ∈ univ)
    (hcv : visited.any (fun p => p.1 == c) = false) :
    Blast.pending radj univ (visited ++ [(c, d)]) + Blast.nodeWeight radj c
      ≤ Blast.pending radj univ visited := by
  unfold Blast.pending
  have hfilter : univ.filter (fun h => !((visited ++ [(c, d)]).any (fun p => p.1 == h)))
      = (univ.filter (fun h => !(visited.any (fun p => p.1 == h)))).filter
          (fun h => !(c == h)) := by
    rw [List.filter_filter]
    refine List.filter_congr ?_
    intro a _
    simp only [List.any_append, Bool.not_or, List.any_cons, List.any_nil, Bool.or_false]
    exact Bool.and_comm _ _
  rw [hfilter]
  refine sum_erase_filter _ _ ?_
  rw [List.mem_filter]
  refine ⟨hc, ?_⟩
  rw [hcv]
  rfl



theorem pairwise_of_forall_mem {α : Type} {r : α → α → Prop} :
    ∀ (l : List α), (∀ a ∈ l, ∀ b ∈ l, r a b) → l.Pairwise r := by
  intro l
  induction l with
  | nil => intro _; exact List.Pairwise.nil
  | cons a t ih =>
    intro h
    refine List.Pairwise.cons ?_ (ih ?_)
    · intro b hb
      exact h a (List.mem_cons_self _ _) b (List.mem_cons_of_mem _ hb)
    · intro x hx y hy
      exact h x (List.mem_cons_of_mem _ hx) y (List.mem_cons_of_mem _ hy)

theorem bfs_master (radj : Blast.RevAdj) (maxD : Nat) (target : String) :
    ∀ (fuel : Nat) (visited queue : List (String × Nat)),
      queue.length + Blast.pending radj (Blast.adjUniverse target radj) visited ≤ fuel →
      (∀ p ∈ queue, p.1 ∈ Blast.adjUniverse target radj) →
      ((visited.map Prod.fst).Nodup) →
      (∀ p ∈ visited ++ queue,
        p.1 ∈ Gr.reachN (Blast.adjGet radj) p.2 target ∧ p.2 ≤ maxD) →
      (((visited ++ queue).map Prod.snd).Pairwise (· ≤ ·)) →
      (∀ x ∈ queue.map Prod.snd, ∀ y ∈ queue.map Prod.snd, x ≤ y + 1) →
      (∀ p ∈ visited, p.2 < maxD → ∀ h ∈ Blast.adjGet radj p.1,
        (∃ j, j ≤ p.2 + 1 ∧ (h, j) ∈ visited)
          ∨ (∃ j, j ≤ p.2 + 1 ∧ (h, j) ∈ queue)) →
      (∃ ext, Blast.bfsFuel radj maxD fuel visited queue = visited ++ ext)
      ∧ ((Blast.bfsFuel radj maxD fuel visited queue).map Prod.fst).Nodup
      ∧ (∀ p ∈ Blast.bfsFuel radj maxD fuel visited queue,
          p.1 ∈ Gr.reachN (Blast.adjGet radj) p.2 target ∧ p.2 ≤ maxD)
      ∧ (∀ p ∈ Blast.bfsFuel radj maxD fuel visited queue, p.2 < maxD →
          ∀ h ∈ Blast.adjGet radj p.1,
            ∃ j, j ≤ p.2 + 1 ∧ (h, j) ∈ Blast.bfsFuel radj maxD fuel visited queue)
      ∧ (∀ p ∈ queue, ∃ j, j ≤ p.2
          ∧ (p.1, j) ∈ Blast.bfsFuel radj maxD fuel visited queue) := by
  intro fuel
  induction fuel with
  | zero =>
    intro visited queue hfuel hU hA hB hC hS hD
    have hq : queue = [] := by
      cases queue with
      | nil => rfl
      | cons q t =>
        rw [List.length_cons] at hfuel
        omega
    subst hq
    refine ⟨⟨[], (List.append_nil visited).symm⟩, hA, ?_, ?_, ?_⟩
    · intro p hp
      exact hB p (by rw [List.append_nil]; exact hp)
    · intro p hp hlt h hh
      rcases hD p hp hlt h hh with ⟨j, hj, hm⟩ | ⟨j, hj, hm⟩
      · exact ⟨j, hj, hm⟩
      · exact absurd hm (List.not_mem_nil _)
    · intro p hp
      exact absurd hp (List.not_mem_nil _)
  | succ fuel ih =>
    intro visited queue hfuel hU hA hB hC hS hD
    cases queue with
    | nil =>
      refine ⟨⟨[], (List.append_nil visited).symm⟩, hA, ?_, ?_, ?_⟩
      · intro p hp
        exact hB p (by rw [List.append_nil]; exact hp)
      · intro p hp hlt h hh
        rcases hD p hp hlt h hh with ⟨j, hj, hm⟩ | ⟨j, hj, hm⟩
        · exact ⟨j, hj, hm⟩
        · exact absurd hm (List.not_mem_nil _)
      · intro p hp
        exact absurd hp (List.not_mem_nil _)
    | cons hd rest =>
      obtain ⟨c, d⟩ := hd
      have hhead : (c, d) ∈ visited ++ (c, d) :: rest :=
        List.mem_append.mpr (Or.inr (List.mem_cons_self _ _))
      have hdle : d ≤ maxD := (hB (c, d) hhead).2
      have hdreach : c ∈ Gr.reachN (Blast.adjGet radj) d target := (hB (c, d) hhead).1
      have hCsplit := List.pairwise_append.mp
        (by rw [List.map_append] at hC; exact hC)
      have hPv : (visited.map Prod.snd).Pairwise (· ≤ ·) := hCsplit.1
      have hPdr : (((c, d) :: rest).map Prod.snd).Pairwise (· ≤ ·) := hCsplit.2.1
      have hcross : ∀ x ∈ visited.map Prod.snd, ∀ y ∈ ((c, d) :: rest).map Prod.snd,
          x ≤ y := hCsplit.2.2
      have hqdmem : d ∈ ((c, d) :: rest).map Prod.snd :=
        List.mem_map.mpr ⟨(c, d), List.mem_cons_self _ _, rfl⟩
      have hrest_sub : ∀ x ∈ rest.map Prod.snd, x ∈ ((c, d) :: rest).map Prod.snd := by
        intro x hx
        rcases List.mem_map.mp hx with ⟨p, hp, rfl⟩
        exact List.mem_map.mpr ⟨p, List.mem_cons_of_mem _ hp, rfl⟩
      have hvd : ∀ x ∈ visited.map Prod.snd, x ≤ d := fun x hx => hcross x hx d hqdmem
      rw [List.map_cons] at hPdr
      have hdrest : ∀ y ∈ rest.map Prod.snd, d ≤ y := (List.pairwise_cons.mp hPdr).1
      have hPrest : (rest.map Prod.snd).Pairwise (· ≤ ·) := (List.pairwise_cons.mp hPdr).2
      have hrd1 : ∀ x ∈ rest.map Prod.snd, x ≤ d + 1 :=
        fun x hx => hS x (hrest_sub x hx) d hqdmem
      by_cases hv : visited.any (fun p => p.1 == c) = true
      · -- skip branch: c already visited (maxD < d is impossible)
        have heq : Blast.bfsFuel radj maxD (fuel + 1) visited ((c, d) :: rest)
            = Blast.bfsFuel radj maxD fuel visited rest := by
          simp only [Blast.bfsFuel]
          rw [if_pos (by rw [hv]; rfl)]
        rcases List.any_eq_true.mp hv with ⟨q, hq, hqc⟩
        have hqc2 : q.1 = c := by simpa using hqc
        have hqv : (c, q.2) ∈ visited := by
          have hq2 : q = (c, q.2) := by rw [← hqc2]
          rw [← hq2]
          exact hq
        have hq2d : q.2 ≤ d := hvd q.2 (List.mem_map.mpr ⟨q, hq, rfl⟩)
        have hres := ih visited rest
          (by rw [List.length_cons] at hfuel; omega)
          (fun p hp => hU p (List.mem_cons_of_mem _ hp))
          hA
          (by
            intro p hp
            refine hB p ?_
            rcases List.mem_append.mp hp with h1 | h1
            · exact List.mem_append.mpr (Or.inl h1)
            · exact List.mem_append.mpr (Or.inr (List.mem_cons_of_mem _ h1)))
          (by
            rw [List.map_append]
            refine List.pairwise_append.mpr ⟨hPv, hPrest, ?_⟩
            intro x hx y hy
            exact hcross x hx y (hrest_sub y hy))
          (fun x hx y hy => hS x (hrest_sub x hx) y (hrest_sub y hy))
          (by
            intro p hp hlt h hh
            rcases hD p hp hlt h hh with ⟨j, hj, hm⟩ | ⟨j, hj, hm⟩
            · exact Or.inl ⟨j, hj, hm⟩
            · rcases List.mem_cons.mp hm with h2 | h2
              · have hhc : h = c := (Prod.ext_iff.mp h2).1
                have hjd : j = d := (Prod.ext_iff.mp h2).2
                subst hhc
                exact Or.inl ⟨q.2, by omega, hqv⟩
              · exact Or.inr ⟨j, hj, h2⟩)
        rw [heq]
        refine ⟨hres.1, hres.2.1, hres.2.2.1, hres.2.2.2.1, ?_⟩
        intro p hp
        rcases List.mem_cons.mp hp with h2 | h2
        · rcases hres.1 with ⟨ext, hext⟩
          refine ⟨q.2, ?_, ?_⟩
          · have hp2d : p.2 = d := by rw [h2]
            omega
          · rw [hext]
            have hp1c : p.1 = c := by rw [h2]
            rw [hp1c]
            exact List.mem_append.mpr (Or.inl hqv)
        · exact hres.2.2.2.2 p h2
      · -- visit branch: c is recorded at depth d
        have hvfalse : visited.any (fun p => p.1 == c) = false := by
          cases hcase : visited.any (fun p => p.1 == c) with
          | false => rfl
          | true => exact absurd hcase hv
        have hcnotv : c ∉ visited.map Prod.fst := by
          intro hmem
          rcases List.mem_map.mp hmem with ⟨p, hp, hpc⟩
          exact hv (List.any_eq_true.mpr ⟨p, hp, by simp [hpc]⟩)
        have hcond : (visited.any (fun p => p.1 == c) || decide (maxD < d)) = false := by
          rw [hvfalse]
          simp only [Bool.false_or, decide_eq_false_iff_not]
          exact not_lt.mpr hdle
        have heq : Blast.bfsFuel radj maxD (fuel + 1) visited ((c, d) :: rest)
            = Blast.bfsFuel radj maxD fuel (visited ++ [(c, d)])
              (rest ++ (if d < maxD then
                ((Blast.adjGet radj c).filter
                  (fun x => !((visited ++ [(c, d)]).any (fun p => p.1 == x)))).map
                    (fun x => (x, d + 1))
                else [])) := by
          simp only [Blast.bfsFuel]
          rw [if_neg (by rw [hcond]; simp)]
        set pushed := (if d < maxD then
          ((Blast.adjGet radj c).filter
            (fun x => !((visited ++ [(c, d)]).any (fun p => p.1 == x)))).map
              (fun x => (x, d + 1))
          else []) with hpushdef
        have hpushmem : ∀ p ∈ pushed,
            p.2 = d + 1 ∧ p.1 ∈ Blast.adjGet radj c ∧ d < maxD := by
          intro p hp
          rw [hpushdef] at hp
          by_cases hdm : d < maxD
          · rw [if_pos hdm] at hp
            rcases List.mem_map.mp hp with ⟨x, hx, rfl⟩
            exact ⟨rfl, List.mem_of_mem_filter hx, hdm⟩
          · rw [if_neg hdm] at hp
            exact absurd hp (List.not_mem_nil _)
        have hpushsnd : ∀ x ∈ pushed.map Prod.snd, x = d + 1 := by
          intro x hx
          rcases List.mem_map.mp hx with ⟨p, hp, rfl⟩
          exact (hpushmem p hp).1
        have hpushlen : pushed.length ≤ (Blast.adjGet radj c).length := by
          rw [hpushdef]
          by_cases hdm : d < maxD
          · rw [if_pos hdm, List.length_map]
            exact List.length_filter_le _ _
          · rw [if_neg hdm]
            exact Nat.zero_le _
        have hcu : c ∈ Blast.adjUniverse target radj :=
          hU (c, d) (List.mem_cons_self _ _)
        have hpend := @Blast.pending_visit_le radj
          (Blast.adjUniverse target radj) visited c d hcu hvfalse
        have hfuel2 : (rest ++ pushed).length
            + Blast.pending radj (Blast.adjUniverse target radj) (visited ++ [(c, d)])
            ≤ fuel := by
          rw [List.length_append]
          rw [List.length_cons] at hfuel
          unfold Blast.nodeWeight at hpend
          omega
        have hU2 : ∀ p ∈ rest ++ pushed, p.1 ∈ Blast.adjUniverse target radj := by
          intro p hp
          rcases List.mem_append.mp hp with h1 | h1
          · exact hU p (List.mem_cons_of_mem _ h1)
          · exact Blast.adjGet_subset c p.1 (hpushmem p h1).2.1
        have hA2 : ((visited ++ [(c, d)]).map Prod.fst).Nodup := by
          rw [List.map_append]
          refine List.nodup_append.mpr ⟨hA, List.nodup_singleton _, ?_⟩
          intro a ha hb
          have hac : a = c := by simpa using hb
          rw [hac] at ha
          exact hcnotv ha
        have hB2 : ∀ p ∈ (visited ++ [(c, d)]) ++ (rest ++ pushed),
            p.1 ∈ Gr.reachN (Blast.adjGet radj) p.2 target ∧ p.2 ≤ maxD := by
          intro p hp
          rcases List.mem_append.mp hp with h1 | h1
          · rcases List.mem_append.mp h1 with h2 | h2
            · exact hB p (List.mem_append.mpr (Or.inl h2))
            · rcases List.mem_singleton.mp h2 with rfl
              exact ⟨hdreach, hdle⟩
          · rcases List.mem_append.mp h1 with h2 | h2
            · exact hB p (List.mem_append.mpr
                (Or.inr (List.mem_cons_of_mem _ h2)))
            · rcases hpushmem p h2 with ⟨hp2, hp1, hdm⟩
              constructor
              · rw [hp2]
                exact Gr.mem_step.mpr (Or.inr ⟨c, hdreach, hp1⟩)
              · omega
        have hC2 : (((visited ++ [(c, d)]) ++ (rest ++ pushed)).map Prod.snd).Pairwise
            (· ≤ ·) := by
          rw [List.map_append]
          refine List.pairwise_append.mpr ⟨?_, ?_, ?_⟩
          · rw [List.map_append]
            refine List.pairwise_append.mpr ⟨hPv, List.pairwise_singleton _ _, ?_⟩
            intro x hx y hy
            have hy2 : y = d := by simpa using hy
            rw [hy2]
            exact hvd x hx
          · rw [List.map_append]
            refine List.pairwise_append.mpr ⟨hPrest, ?_, ?_⟩
            · refine pairwise_of_forall_mem _ ?_
              intro a ha b hb
              rw [hpushsnd a ha, hpushsnd b hb]
            · intro x hx y hy
              rw [hpushsnd y hy]
              exact hrd1 x hx
          · intro x hx y hy
            have hxd : x ≤ d := by
              rw [List.map_append] at hx
              rcases List.mem_append.mp hx with h1 | h1
              · exact hvd x h1
              · have hx2 : x = d := by simpa using h1
                omega
            rw [List.map_append] at hy
            rcases List.mem_append.mp hy with h1 | h1
            · exact le_trans hxd (hdrest y h1)
            · rw [hpushsnd y h1]
              omega
        have hS2 : ∀ x ∈ (rest ++ pushed).map Prod.snd,
            ∀ y ∈ (rest ++ pushed).map Prod.snd, x ≤ y + 1 := by
          intro x hx y hy
          rw [List.map_append] at hx hy
          rcases List.mem_append.mp hx with hx1 | hx1 <;>
            rcases List.mem_append.mp hy with hy1 | hy1
          · exact hS x (hrest_sub x hx1) y (hrest_sub y hy1)
          · rw [hpushsnd y hy1]
            have := hrd1 x hx1
            omega
          · rw [hpushsnd x hx1]
            have := hdrest y hy1
            omega
          · rw [hpushsnd x hx1, hpushsnd y hy1]
            omega
        have hD2 : ∀ p ∈ visited ++ [(c, d)], p.2 < maxD →
            ∀ h ∈ Blast.adjGet radj p.1,
              (∃ j, j ≤ p.2 + 1 ∧ (h, j) ∈ visited ++ [(c, d)])
                ∨ (∃ j, j ≤ p.2 + 1 ∧ (h, j) ∈ rest ++ pushed) := by
          intro p hp hlt h hh
          rcases List.mem_append.mp hp with hp1 | hp1
          · rcases hD p hp1 hlt h hh with ⟨j, hj, hm⟩ | ⟨j, hj, hm⟩
            · exact Or.inl ⟨j, hj, List.mem_append.mpr (Or.inl hm)⟩
            · rcases List.mem_cons.mp hm with h2 | h2
              · have hhc : h = c := (Prod.ext_iff.mp h2).1
                have hjd : j = d := (Prod.ext_iff.mp h2).2
                refine Or.inl ⟨d, by omega, ?_⟩
                rw [hhc]
                exact List.mem_append.mpr (Or.inr (List.mem_singleton.mpr rfl))
              · exact Or.inr ⟨j, hj, List.mem_append.mpr (Or.inl h2)⟩
          · rcases List.mem_singleton.mp hp1 with rfl
            by_cases hhv : (visited ++ [(c, d)]).any (fun q => q.1 == h) = true
            · rcases List.any_eq_true.mp hhv with ⟨q, hq, hqh⟩
              have hqh2 : q.1 = h := by simpa using hqh
              have hqd : q.2 ≤ d := by
                rcases List.mem_append.mp hq with h3 | h3
                · exact hvd q.2 (List.mem_map.mpr ⟨q, h3, rfl⟩)
                · rcases List.mem_singleton.mp h3 with rfl
                  exact le_refl d
              refine Or.inl ⟨q.2, le_trans hqd (Nat.le_succ d), ?_⟩
              rw [← hqh2]
              exact (by
                have hqeta : (q.1, q.2) = q := rfl
                rw [hqeta]
                exact hq)
            · have hfalse2 : (visited ++ [(c, d)]).any (fun q => q.1 == h) = false := by
                cases hcase : (visited ++ [(c, d)]).any (fun q => q.1 == h) with
                | false => rfl
                | true => exact absurd hcase hhv
              have hdm : d < maxD := hlt
              refine Or.inr ⟨d + 1, le_refl _, ?_⟩
              refine List.mem_append.mpr (Or.inr ?_)
              rw [hpushdef, if_pos hdm]
              refine List.mem_map.mpr ⟨h, ?_, rfl⟩
              rw [List.mem_filter]
              refine ⟨hh, ?_⟩
              rw [hfalse2]
              rfl
        have hres := ih (visited ++ [(c, d)]) (rest ++ pushed)
          hfuel2 hU2 hA2 hB2 hC2 hS2 hD2
        rw [heq]
        refine ⟨?_, hres.2.1, hres.2.2.1, hres.2.2.2.1, ?_⟩
        · rcases hres.1 with ⟨ext, hext⟩
          refine ⟨(c, d) :: ext, ?_⟩
          rw [hext, List.append_assoc, List.singleton_append]
        · intro p hp
          rcases List.mem_cons.mp hp with h2 | h2
          · rcases hres.1 with ⟨ext, hext⟩
            refine ⟨d, ?_, ?_⟩
            · have hp2d : p.2 = d := by rw [h2]
              omega
            · rw [hext]
              have hp1c : p.1 = c := by rw [h2]
              rw [hp1c]
              exact List.mem_append.mpr
                (Or.inl (List.mem_append.mpr (Or.inr (List.mem_singleton.mpr rfl))))
          · exact hres.2.2.2.2 p (List.mem_append.mpr (Or.inl h2))

theorem Blast.bfsVisited_props (target : String) (radj : Blast.RevAdj) (maxD : Nat) :
    (((Blast.bfsVisited target radj maxD).map Prod.fst).Nodup)
    ∧ (∀ p ∈ Blast.bfsVisited target radj maxD,
        p.1 ∈ Gr.reachN (Blast.adjGet radj) p.2 target ∧ p.2 ≤ maxD)
    ∧ (∀ p ∈ Blast.bfsVisited target radj maxD, p.2 < maxD →
        ∀ h ∈ Blast.adjGet radj p.1,
          ∃ j, j ≤ p.2 + 1 ∧ (h, j) ∈ Blast.bfsVisited target radj maxD)
    ∧ ((target, 0) ∈ Blast.bfsVisited target radj maxD) := by
  have hdef : Blast.bfsVisited target radj maxD
      = Blast.bfsFuel radj maxD
          (1 + Blast.pending radj (Blast.adjUniverse target radj) []) [] [(target, 0)] :=
    rfl
  have h := bfs_master radj maxD target
    (1 + Blast.pending radj (Blast.adjUniverse target radj) []) [] [(target, 0)]
    (le_refl _)
    (by
      intro p hp
      rcases List.mem_singleton.mp hp with rfl
      exact List.mem_cons_self _ _)
    List.nodup_nil
    (by
      intro p hp
      rcases List.mem_singleton.mp hp with rfl
      exact ⟨Gr.self_mem_reachN, Nat.zero_le _⟩)
    (List.pairwise_singleton _ _)
    (by
      intro x hx y hy
      rcases List.mem_singleton.mp hx with rfl
      exact Nat.zero_le _)
    (by
      intro p hp
      exact absurd hp (List.not_mem_nil _))
  rw [hdef]
  refine ⟨h.2.1, h.2.2.1, h.2.2.2.1, ?_⟩
  rcases h.2.2.2.2 (target, 0) (List.mem_singleton.mpr rfl) with ⟨j, hj, hm⟩
  have hj0 : j = 0 := Nat.le_zero.mp hj
  rw [hj0] at hm
  exact hm

theorem Blast.bfsVisited_complete (target : String) (radj : Blast.RevAdj) (maxD : Nat) :
    ∀ k, k ≤ maxD → ∀ v ∈ Gr.reachN (Blast.adjGet radj) k target,
      ∃ j, j ≤ k ∧ (v, j) ∈ Blast.bfsVisited target radj maxD := by
  have hprops := Blast.bfsVisited_props target radj maxD
  intro k
  induction k with
  | zero =>
    intro _ v hv
    rcases List.mem_singleton.mp hv with rfl
    exact ⟨0, le_refl _, hprops.2.2.2⟩
  | succ k ihk =>
    intro hk1 v hv
    rcases Gr.mem_step.mp hv with h1 | ⟨p, hp, hs⟩
    · rcases ihk (by omega) v h1 with ⟨j, hj, hm⟩
      exact ⟨j, by omega, hm⟩
    · rcases ihk (by omega) p hp with ⟨j, hj, hm⟩
      rcases hprops.2.2.1 (p, j) hm (by omega) v hs with ⟨j2, hj2, hm2⟩
      exact ⟨j2, by omega, hm2⟩

theorem Blast.bfsVisited_char (target : String) (radj : Blast.RevAdj) (maxD : Nat) :
    ∀ v k, (v, k) ∈ Blast.bfsVisited target radj maxD ↔
      (k ≤ maxD ∧ v ∈ Gr.reachN (Blast.adjGet radj) k target
        ∧ ∀ j < k, v ∉ Gr.reachN (Blast.adjGet radj) j target) := by
  have hprops := Blast.bfsVisited_props target radj maxD
  intro v k
  constructor
  · intro hm
    have hsound := hprops.2.1 (v, k) hm
    refine ⟨hsound.2, hsound.1, ?_⟩
    intro j hj hreach
    rcases Blast.bfsVisited_complete target radj maxD j (by omega) v hreach
      with ⟨j2, hj2, hm2⟩
    have hkeq : j2 = k := nodup_keys_unique hprops.1 hm2 hm
    omega
  · rintro ⟨hkle, hreach, hmin⟩
    rcases Blast.bfsVisited_complete target radj maxD k hkle v hreach with ⟨j, hj, hm⟩
    have hj2 : ¬ j < k := by
      intro hlt
      exact hmin j hlt (hprops.2.1 (v, j) hm).1
    have hjk : j = k := by omega
    rw [← hjk]
    exact hm

/-- C9.  `compute_blast_radius` returns exactly the nodes other than the
target that are reachable from it over the reverse adjacency within
`max_depth` hops, each annotated with its shortest-path depth, sorted
ascending by depth; `affected_count` counts them and
`max_depth_reached` reports the requested bound.  On Scenario F's chain
with `max_depth = 3` the result is B(1), C(2), D(3) with E and F
excluded.  The node table is assumed to key every node by its own hash
and to contain every vertex of the reverse adjacency, as the call site
guarantees. -/
theorem compute_blast_radius_c9 (target : String) (tn : Blast.BNode)
    (radj : Blast.RevAdj) (all_nodes : List (String × Blast.BNode)) (maxD : Nat)
    (hkeys : ∀ p ∈ all_nodes, p.2.hash = p.1)
    (hfind : ∀ h ∈ Blast.adjUniverse target radj,
      (all_nodes.find? (fun q => q.1 == h)).isSome = true) :
    (∀ h k,
      (h, k) ∈ (Blast.compute_blast_radius target tn radj all_nodes maxD).affected_nodes.map
          (fun p => (p.1.hash, p.2)) ↔
        (h ≠ target ∧ k ≤ maxD ∧ h ∈ Gr.reachN (Blast.adjGet radj) k target
          ∧ ∀ j < k, h ∉ Gr.reachN (Blast.adjGet radj) j target))
    ∧ (((Blast.compute_blast_radius target tn radj all_nodes maxD).affected_nodes.map
        Prod.snd).Pairwise (· ≤ ·))
    ∧ (Blast.compute_blast_radius target tn radj all_nodes maxD).affected_count
        = (Blast.compute_blast_radius target tn radj all_nodes maxD).affected_nodes.length
    ∧ (Blast.compute_blast_radius target tn radj all_nodes maxD).max_depth_reached = maxD
    ∧ (Blast.compute_blast_radius "A" { hash := "A", module := some "m" }
        Blast.scnF_radj Blast.scnF_nodes 3
        = { target := { hash := "A", module := some "m" }
            affected_count := 3
            affected_nodes := [({ hash := "B", module := some "m" }, 1),
              ({ hash := "C", module := some "m" }, 2),
              ({ hash := "D", module := some "m" }, 3)]
            modules_affected := ["m"]
            max_depth_reached := 3 }) := by
  have hchar := Blast.bfsVisited_char target radj maxD
  have haff : (Blast.compute_blast_radius target tn radj all_nodes maxD).affected_nodes
      = ((Blast.bfsVisited target radj maxD).filterMap (fun p =>
          if p.1 = target then none
          else ((all_nodes.find? (fun q => q.1 == p.1)).map
            (fun q => (q.2, p.2))))).insertionSort (fun a b => a.2 ≤ b.2) := rfl
  have hcnt : (Blast.compute_blast_radius target tn radj all_nodes maxD).affected_count
      = ((Blast.bfsVisited target radj maxD).filterMap (fun p =>
          if p.1 = target then none
          else ((all_nodes.find? (fun q => q.1 == p.1)).map
            (fun q => (q.2, p.2))))).length := rfl
  refine ⟨?_, ?_, ?_, rfl, by decide⟩
  · intro h k
    rw [haff]
    constructor
    · intro hmem
      rcases List.mem_map.mp hmem with ⟨⟨b, k2⟩, hb, hbe⟩
      have hbh : b.hash = h := (Prod.ext_iff.mp hbe).1
      have hk2 : k2 = k := (Prod.ext_iff.mp hbe).2
      have hbaff := (List.perm_insertionSort _ _).mem_iff.mp hb
      rcases List.mem_filterMap.mp hbaff with ⟨p, hpV, hpf⟩
      by_cases hpt : p.1 = target
      · rw [if_pos hpt] at hpf
        exact Option.noConfusion hpf
      · rw [if_neg hpt] at hpf
        rcases Option.map_eq_some'.mp hpf with ⟨q, hq, hg⟩
        have hq1 : q.1 = p.1 := by simpa using List.find?_some hq
        have hqh : q.2.hash = p.1 := by rw [hkeys q (List.mem_of_find?_eq_some hq), hq1]
        have hb2 : q.2 = b := (Prod.ext_iff.mp hg).1
        have hp2 : p.2 = k2 := (Prod.ext_iff.mp hg).2
        have hph : p.1 = h := by rw [← hqh, hb2, hbh]
        have hVm : (h, k) ∈ Blast.bfsVisited target radj maxD := by
          rw [← hph, ← hk2, ← hp2]
          have hpe : (p.1, p.2) = p := rfl
          rw [hpe]
          exact hpV
        have hc := (hchar h k).mp hVm
        refine ⟨?_, hc.1, hc.2.1, hc.2.2⟩
        rw [← hph]
        exact hpt
    · rintro ⟨hht, hkle, hreach, hmin⟩
      have hVm : (h, k) ∈ Blast.bfsVisited target radj maxD :=
        (hchar h k).mpr ⟨hkle, hreach, hmin⟩
      have hku : h ∈ Blast.adjUniverse target radj := by
        cases k with
        | zero =>
          have hht2 : h = target := List.mem_singleton.mp hreach
          exact absurd hht2 hht
        | succ k0 =>
          rcases Gr.mem_step.mp hreach with h1 | ⟨p, hp, hs⟩
          · exact absurd h1 (hmin k0 (Nat.lt_succ_self _))
          · exact Blast.adjGet_subset p h hs
      rcases Option.isSome_iff_exists.mp (hfind h hku) with ⟨q, hq⟩
      have hq1 : q.1 = h := by simpa using List.find?_some hq
      have hqh : q.2.hash = h := by rw [hkeys q (List.mem_of_find?_eq_some hq), hq1]
      refine List.mem_map.mpr ⟨(q.2, k), ?_, ?_⟩
      · refine (List.perm_insertionSort _ _).mem_iff.mpr ?_
        refine List.mem_filterMap.mpr ⟨(h, k), hVm, ?_⟩
        rw [if_neg hht, hq]
        rfl
      · rw [Prod.ext_iff]
        exact ⟨hqh, rfl⟩
  · rw [haff]
    haveI : IsTotal (Blast.BNode × Nat) (fun a b => a.2 ≤ b.2) :=
      ⟨fun a b => Nat.le_total a.2 b.2⟩
    haveI : IsTrans (Blast.BNode × Nat) (fun a b => a.2 ≤ b.2) :=
      ⟨fun a b c h1 h2 => Nat.le_trans h1 h2⟩
    have hsorted := List.sorted_insertionSort (fun a b : Blast.BNode × Nat => a.2 ≤ b.2)
      ((Blast.bfsVisited target radj maxD).filterMap (fun p =>
        if p.1 = target then none
        else ((all_nodes.find? (fun q => q.1 == p.1)).map (fun q => (q.2, p.2)))))
    exact List.Pairwise.map Prod.snd (fun a b hab => hab) hsorted
  · rw [haff, hcnt]
    exact ((List.perm_insertionSort _ _).length_eq).symm

theorem compute_blast_radius_c9_witness :
    (Blast.compute_blast_radius "A" { hash := "A", module := some "m" }
      Blast.scnF_radj Blast.scnF_nodes 3).max_depth_reached = 3 :=
  (compute_blast_radius_c9 "A" { hash := "A", module := some "m" } Blast.scnF_radj
    Blast.scnF_nodes 3 (by decide) (by decide)).2.2.2.1
